import Mathlib

/-!
Verification of the RecuperaBit NTFS forensic reconstructor.

This file shallowly embeds the parts of the code base that the checked
properties speak about:

* `recuperabit/utils.py`      : `unpack`, `signedbytes`, `merge`
* `recuperabit/fs/ntfs_fmt.py`: `runlist_unpack`
* `recuperabit/fs/ntfs.py`    : `best_name`, `NTFSScanner.feed`, the
  fragmented-MFT merge loop of `NTFSScanner.get_partitions`
* `recuperabit/logic.py`      : `SparseList`, `preprocess_pattern`,
  `approximate_matching`
* `recuperabit/fs/core_types.py`: `File`, `Partition`, `add_child`,
  `rebuild`, `__getitem__` / `get`

Python conventions used throughout the embedding:

* a byte string (`bytearray`) is a `List Nat` of byte values;
* a Python unicode string is a `List Nat` of code points (this keeps
  Python's code-point comparison and concatenation semantics exact);
* Python `None` is `Option.none` (or a dedicated constructor of a value
  type when a dictionary stores heterogeneous data);
* Python dictionaries are insertion-ordered association lists;
* Python sets are `Finset`s;
* an operation that can raise is `Option`/`Except` valued.
-/

namespace RB

/-- Byte strings (`bytearray` contents). -/
abbrev Bytes := List Nat

/-- Python unicode strings as lists of code points. -/
abbrev PyStr := List Nat

/-- Python slice `data[a:b]` for integer bounds: negative indices count
from the end, and both bounds are clamped into `[0, len]`. -/
def pySlice (data : Bytes) (a b : Int) : Bytes :=
  let n : Int := data.length
  let lo : Nat := if a < 0 then (n + a).toNat else min a.toNat data.length
  let hi : Nat := if b < 0 then (n + b).toNat else min b.toNat data.length
  (data.drop lo).take (hi - lo)

/-- Big-endian base-256 value of a byte string: the value of
`int(str(data).encode('hex'), 16)` in `utils.py`. -/
def besValue (l : Bytes) : Int :=
  l.foldl (fun acc b => acc * 256 + (b : Int)) 0

/-- Python `~d % 256` on a byte. -/
def pyInvByte (d : Nat) : Nat := ((-(d : Int) - 1).emod 256).toNat

/-- `utils.signedbytes`: big-endian two's-complement interpretation.  The
source recurses once on the complemented bytes when the sign bit of the
first byte is set; for byte values (< 256) one complement step suffices,
which is what the embedding performs. -/
def signedbytes (l : Bytes) : Int :=
  match l with
  | [] => 0
  | d :: _ =>
      if Nat.testBit d 7 then -(besValue (l.map pyInvByte)) - 1
      else besValue l

/-- Values a decoded field of `utils.unpack` can hold. -/
inductive Val where
  | none
  | int (n : Int)
  | bytes (bs : Bytes)
  | str (s : PyStr)
  deriving DecidableEq, Repr

/-- The formatter kinds accepted by `utils.unpack`: raw bytes (`'s'`),
text (`'utf-16'`), little/big-endian unsigned/signed integers
(`'i'`, `'>i'`, `'+i'`, `'>+i'`), or an arbitrary callable. -/
inductive Fmt where
  | s
  | utf
  | i (bigEndian : Bool) (signed : Bool)
  | call (f : Bytes → Val)

/-- A field bound: either an integer literal or a function of the
partially built result (returning `None` aborts the field). -/
inductive Bound where
  | lit (n : Int)
  | fn (f : List (String × Val) → Option Int)

/-- Dictionary read (`d[k]`), `Val.none` when the key is missing. -/
def dget (d : List (String × Val)) (k : String) : Val :=
  match d.find? (fun p => p.1 == k) with
  | some p => p.2
  | Option.none => Val.none

/-- Dictionary write `d[k] = v`: replaces in place, else appends. -/
def dset (d : List (String × Val)) (k : String) (v : Val) :
    List (String × Val) :=
  if (d.find? (fun p => p.1 == k)).isSome then
    d.map (fun p => if p.1 == k then (k, v) else p)
  else d ++ [(k, v)]

/-- Evaluate one bound against the partial result. -/
def evalBound (b : Bound) (result : List (String × Val)) : Option Int :=
  match b with
  | .lit n => some n
  | .fn f => f result

/-- One step of `utils.unpack`: process a single `(label, description)`
field.  The `utf16` parameter is the Python codec for `'utf-16'`; a
decode failure (`Option.none`) raises, which is the only failure point
of the loop body. -/
def processField (utf16 : Bytes → Option PyStr) (data : Bytes)
    (result : List (String × Val)) (field : String × Fmt × Bound × Bound) :
    Except Unit (List (String × Val)) :=
  let (label, formatter, lower, higher) := field
  match evalBound lower result, evalBound higher result with
  | some low, some high =>
      let chunk := pySlice data low (high + 1)
      match formatter with
      | .call g => Except.ok (dset result label (g chunk))
      | .s => Except.ok (dset result label (.bytes chunk))
      | .utf =>
          match utf16 chunk with
          | some txt => Except.ok (dset result label (.str txt))
          | Option.none => Except.error ()
      | .i be sgn =>
          if chunk.length ≠ 0 then
            let ordered := if be then chunk else chunk.reverse
            Except.ok (dset result label
              (.int (if sgn then signedbytes ordered else besValue ordered)))
          else Except.ok (dset result label .none)
  | _, _ => Except.ok (dset result label .none)

/-- `utils.unpack`: extract formatted information from a string of
bytes, folding `processField` over the field list. -/
def unpack (utf16 : Bytes → Option PyStr) (data : Bytes)
    (fmt : List (String × Fmt × Bound × Bound)) :
    Except Unit (List (String × Val)) :=
  fmt.foldlM (processField utf16 data) []

/-- `ntfs_fmt.runlist_unpack` body: decode one run header and fields,
then recurse on the rest.  Pieces are `(offset, length)` pairs exactly
as stored in the decoded dictionaries. -/
def runlist_unpack (utf16 : Bytes → Option PyStr) (runlist : Bytes) :
    List (Val × Val) :=
  match hr : runlist with
  | [] => []
  | b :: _ =>
      if b = 0 then []
      else
        let off_bytes : Nat := b / 2 ^ 4
        let len_bytes : Nat := b % 2 ^ 4
        let hend : Nat := len_bytes + off_bytes
        match unpack utf16 runlist
          [("length", Fmt.i false false, Bound.lit 1, Bound.lit len_bytes),
           ("offset", Fmt.i false true, Bound.lit ((len_bytes : Int) + 1),
            Bound.lit hend)] with
        | .ok decoded =>
            if dget decoded "length" = Val.none ∨
               dget decoded "offset" = Val.none then []
            else
              (dget decoded "offset", dget decoded "length") ::
                runlist_unpack utf16 (runlist.drop (hend + 1))
        | .error _ => []
  termination_by runlist.length
  decreasing_by
    simp [hr]
    omega

/-! ### `ntfs.best_name` -/

/-- Python code-point comparison `a <= b` on unicode strings
(lexicographic, a prefix is smaller). -/
def pyStrLe : PyStr → PyStr → Bool
  | [], _ => true
  | _ :: _, [] => false
  | a :: as_, b :: bs => if a < b then true else if b < a then false
      else pyStrLe as_ bs

/-- Python tuple comparison `(ns, name) <= (ns, name)` used by
`entries.sort()` in `best_name`. -/
def pairLe (a b : Nat × PyStr) : Bool :=
  if a.1 < b.1 then true else if b.1 < a.1 then false else pyStrLe a.2 b.2

/-- `ntfs.best_name`: sort the `(namespace, name)` candidates; prefer
the last entry when its namespace is 3 (Posix), else take the first;
empty names give `None`. -/
def best_name (entries : List (Nat × PyStr)) : Option PyStr :=
  if entries.length = 0 then Option.none
  else
    let sorted := entries.mergeSort pairLe
    let chosen :=
      if (sorted.getLastD (0, [])).1 = 3 then (sorted.getLastD (0, [])).2
      else (sorted.headD (0, [])).2
    if chosen.length ≠ 0 then some chosen else Option.none

/-! ### `NTFSScanner.feed` -/

/-- Does `l` contain `sub` as a contiguous substring (Python `in`)? -/
def containsSub (l sub : Bytes) : Bool :=
  (List.range (l.length + 1)).any (fun i => (l.drop i).take sub.length == sub)

/-- Python `sector.endswith(suffix)`. -/
def bytesEndsWith (l suffix : Bytes) : Bool :=
  l.drop (l.length - suffix.length) == suffix && suffix.length ≤ l.length

/-- Python `sector.startswith(p)`. -/
def bytesStartsWith (l p : Bytes) : Bool :=
  l.take p.length == p

/-- Scanner classification state: `found_file` and `found_indx` are
Python sets, `found_boot` is an ordered Python list. -/
structure ScannerState where
  found_file : Finset Nat
  found_indx : Finset Nat
  found_boot : List Nat
  deriving DecidableEq

/-- The boot-sector test of `NTFSScanner.feed`: the sector ends with
`55 AA` and the bytes of `"NTFS"` occur in its first 8 bytes. -/
def isBootSector (sector : Bytes) : Bool :=
  bytesEndsWith sector [0x55, 0xAA] && containsSub (sector.take 8) [78, 84, 70, 83]

/-- The FILE-record test: starts with `"FILE"` or `"BAAD"`. -/
def isFileRecord (sector : Bytes) : Bool :=
  bytesStartsWith sector [70, 73, 76, 69] || bytesStartsWith sector [66, 65, 65, 68]

/-- The INDX-record test: starts with `"INDX"`. -/
def isIndxRecord (sector : Bytes) : Bool :=
  bytesStartsWith sector [73, 78, 68, 88]

/-- `NTFSScanner.feed`: classify one `(index, sector)` pair, mutating
the scanner state and returning the classification tag. -/
def feed (s : ScannerState) (index : Nat) (sector : Bytes) :
    ScannerState × Option String :=
  if isBootSector sector then
    ({ s with found_boot := s.found_boot ++ [index] }, some "NTFS boot sector")
  else if isFileRecord sector then
    ({ s with found_file := insert index s.found_file }, some "NTFS file record")
  else if isIndxRecord sector then
    ({ s with found_indx := insert index s.found_indx }, some "NTFS index record")
  else (s, Option.none)

/-- Feed a whole stream of `(index, sector)` pairs in order. -/
def feedAll (s : ScannerState) (l : List (Nat × Bytes)) : ScannerState :=
  l.foldl (fun st p => (feed st p.1 p.2).1) s

/-! ### `logic.SparseList`

A `SparseList` stores values at integer positions.  `V` is the Python
value domain of the stored elements (callers that store either an
object or `None` instantiate `V` with an `Option`).  `bisect.insort`
and `del keys[bisect.bisect_left(keys, index)]` are modeled by their
specification on the sorted duplicate-free key lists the class
maintains: insertion at the sorted position, and removal of the (one)
occurrence of the key.  Likewise `wipe_interval` materializes the kept
keys as `sorted(new_keys)`, which on a sorted duplicate-free key list
is just the filtered list. -/

structure SparseList (V : Type) where
  keys : List Int
  elements : List (Int × V)
  default : V

/-- `SparseList.__len__`: last key plus one, `0` when empty. -/
def slLen {V : Type} (s : SparseList V) : Int :=
  match s.keys.getLast? with
  | some k => k + 1
  | Option.none => 0

/-- `SparseList.__getitem__`: `elements.get(index, default)`. -/
def slGet {V : Type} (s : SparseList V) (index : Int) : V :=
  match s.elements.find? (fun p => p.1 == index) with
  | some p => p.2
  | Option.none => s.default

/-- Insert into a sorted list after any equal entries (`bisect.insort`). -/
def insort (l : List Int) (x : Int) : List Int :=
  match l with
  | [] => [x]
  | a :: t => if x < a then x :: a :: t else a :: insort t x

/-- `SparseList.__setitem__`. -/
def slSet {V : Type} [DecidableEq V] (s : SparseList V) (index : Int)
    (item : V) : SparseList V :=
  if item = s.default then
    if (s.elements.find? (fun p => p.1 == index)).isSome then
      { s with elements := s.elements.filter (fun p => p.1 != index),
               keys := s.keys.erase index }
    else s
  else
    { s with
      elements :=
        if (s.elements.find? (fun p => p.1 == index)).isSome then
          s.elements.map (fun p => if p.1 == index then (index, item) else p)
        else s.elements ++ [(index, item)],
      keys :=
        if (s.elements.find? (fun p => p.1 == index)).isSome then s.keys
        else insort s.keys index }

/-- The removal predicate of `wipe_interval`: with `bottom ≤ top` the
keys in `[bottom, top)` go, otherwise the keys outside `[top, bottom)`
go. -/
def wipedOut (bottom top k : Int) : Bool :=
  if bottom > top then !(top ≤ k && k < bottom) else bottom ≤ k && k < top

/-- `SparseList.wipe_interval`. -/
def wipe_interval {V : Type} (s : SparseList V) (bottom top : Int) :
    SparseList V :=
  { s with
    keys := s.keys.filter (fun k => !wipedOut bottom top k),
    elements := s.elements.filter (fun p => !wipedOut bottom top p.1) }

/-! ### `logic.preprocess_pattern` and `logic.approximate_matching`

The matcher is embedded at the value domain it is used with in
`NTFSScanner.find_boundary`: the symbols are Python integers (MFT
record numbers), so a stored value is an `Option Int` (`none` being
Python `None`, the default).  Python's dynamically-typed `==` and `>`
between a stored value and an integer are `pyEqVI` / `pyGtVI`. -/

/-- Python `==` between a stored value and an `int`. -/
def pyEqVI (v : Option Int) (m : Int) : Bool :=
  match v with
  | some n => n == m
  | Option.none => false

/-- Python `>` between a stored value and an `int` (only ever applied
to actual integers). -/
def pyGtVI (v : Option Int) (m : Int) : Bool :=
  match v with
  | some n => m < n
  | Option.none => false

/-- Association-list read for the preprocessing dictionary. -/
def alGet (d : List (Option Int × List Int)) (k : Option Int) :
    Option (List Int) :=
  match d.find? (fun p => p.1 == k) with
  | some p => some p.2
  | Option.none => Option.none

/-- Association-list write for the preprocessing dictionary. -/
def alSet (d : List (Option Int × List Int)) (k : Option Int)
    (v : List Int) : List (Option Int × List Int) :=
  if (d.find? (fun p => p.1 == k)).isSome then
    d.map (fun p => if p.1 == k then (k, v) else p)
  else d ++ [(k, v)]

/-- `logic.preprocess_pattern`: map each symbol to the list of values
`len(pattern)-k-1` over its occurrences, except that an occurrence is
skipped when the symbol compares equal to the previously recorded
offset (the `elif name != result[name][-1]` guard). -/
def preprocess_pattern (pattern : SparseList (Option Int)) :
    List (Option Int × List Int) :=
  let length := slLen pattern
  pattern.keys.foldl
    (fun result k =>
      let name := slGet pattern k
      match alGet result name with
      | Option.none => alSet result name [length - k - 1]
      | some lst =>
          if !pyEqVI name (lst.getLastD 0) then
            alSet result name (lst ++ [length - k - 1])
          else result)
    []

/-- Running state of the `approximate_matching` scan. -/
structure AMState where
  count : SparseList (Option Int)
  match_offsets : Finset Int
  k : Int
  j : Int

/-- Inner loop of `approximate_matching`: process the precomputed
offsets of the current symbol.  Python iterates a freshly built set of
the (distinct) offsets; the embedding iterates them in list order. -/
def amInner (msize i : Int) (offsets : List Int) (st : AMState) : AMState :=
  offsets.foldl
    (fun st off =>
      let slot := (i + off).emod msize
      let count := slSet st.count slot
        (match slGet st.count slot with
         | some n => some (n + 1)
         | Option.none => Option.none)
      let score := slGet count slot
      let st := { st with count := count }
      let st :=
        if pyEqVI score st.k then
          { st with match_offsets := insert (i + off - msize + 1) st.match_offsets }
        else st
      if pyGtVI score st.k then
        { st with k := (score.getD 0),
                  match_offsets := {i + off - msize + 1} }
      else st)
    st

/-- Outer loop of `approximate_matching` over the populated keys of the
records, with the early break at `stop + msize - 1`. -/
def amLoop (records : SparseList (Option Int))
    (lookup : List (Option Int × List Int)) (msize stop : Int) :
    List Int → AMState → AMState
  | [], st => st
  | i :: rest, st =>
      if i > stop + msize - 1 then st
      else
        let count := wipe_interval st.count (st.j.emod msize) (i.emod msize)
        let offsets := (alGet lookup (slGet records i)).getD []
        let st := amInner msize i offsets { st with count := count, j := i }
        amLoop records lookup msize stop rest st

/-- `logic.approximate_matching`: the result is the set of matching
offsets, the support, and the support divided by the number of
populated pattern keys (as an exact rational). -/
def approximate_matching (records pattern : SparseList (Option Int))
    (stop : Int) (k : Int := 1) : Option (Finset Int × Int × ℚ) :=
  let msize := slLen pattern
  if slLen records = 0 ∨ msize = 0 then Option.none
  else
    let lookup := preprocess_pattern pattern
    let st0 : AMState :=
      { count := ⟨[], [], some 0⟩, match_offsets := ∅, k := k, j := 0 }
    let st := amLoop records lookup msize stop records.keys st0
    if st.match_offsets.card ≠ 0 then
      some (st.match_offsets, st.k, (st.k : ℚ) / (pattern.keys.length : ℚ))
    else Option.none

/-! ### `core_types.File` and `core_types.Partition`

Python `File` objects have identity semantics: `children` is a set of
object references and two distinct objects may carry the same index
(the `lost` directory and a ghost `Dir_-1` both have index `-1`).  The
embedding therefore models the object graph explicitly: a heap is a
list of `FileObj`s addressed by allocation number, and `children`
holds heap addresses.  A Python index (`int` or `str`) is `Idx`. -/

abbrev Idx := Int ⊕ PyStr

/-- Decimal digits of a natural number, as code points (`str(n)`). -/
def decDigits (n : Nat) : PyStr :=
  if n = 0 then [48] else ((Nat.digits 10 n).reverse.map (fun d => 48 + d))

/-- Python `str` of an integer. -/
def intStr (n : Int) : PyStr :=
  if n < 0 then 45 :: decDigits n.natAbs else decDigits n.natAbs

/-- Python `str` of an index. -/
def idxStr : Idx → PyStr
  | Sum.inl n => intStr n
  | Sum.inr s => s

/-- `'%03d' % i`: decimal, zero-padded to width 3. -/
def fmt03 (i : Nat) : PyStr :=
  List.replicate (3 - (decDigits i).length) 48 ++ decDigits i

/-- The candidate name `original_name + '_%03d' % i` tried by
`File.add_child` when resolving a name clash. -/
def renameCandidate (orig : PyStr) (i : Nat) : PyStr :=
  orig ++ [95] ++ fmt03 i

/-- A `core_types.File` object (the `mac` timestamp dictionary carries
no information relevant to the verified properties and is omitted). -/
structure FileObj where
  index : Idx
  name : PyStr
  size : Option Int
  is_directory : Bool
  is_deleted : Bool
  is_ghost : Bool
  parent : Option Idx
  children : Finset Nat
  children_names : Finset PyStr
  offset : Option Int
  deriving DecidableEq

/-- `File.__init__`. -/
def mkFile (index : Idx) (name : PyStr) (size : Option Int)
    (dir del ghost : Bool) : FileObj :=
  ⟨index, name, size, dir, del, ghost, Option.none, ∅, ∅, Option.none⟩

/-- Heaps of `File` objects; an address is a position in the list. -/
abbrev Heap := List FileObj

/-- Dereference (addresses produced by `halloc` are always in range). -/
def heapGet (h : Heap) (i : Nat) : FileObj :=
  h.getD i (mkFile (Sum.inl 0) [] Option.none false false false)

/-- In-place object update. -/
def heapSet (h : Heap) (i : Nat) (f : FileObj) : Heap := h.set i f

/-- Allocate a new object, returning its address. -/
def halloc (h : Heap) (f : FileObj) : Heap × Nat := (h ++ [f], h.length)

/-- Lookup in the `files` dictionary. -/
def fdGet (d : List (Idx × Nat)) (k : Idx) : Option Nat :=
  (d.find? (fun p => decide (p.1 = k))).map (fun p => p.2)

/-- Write to the `files` dictionary (insertion-ordered). -/
def fdSet (d : List (Idx × Nat)) (k : Idx) (v : Nat) : List (Idx × Nat) :=
  if (d.find? (fun p => decide (p.1 = k))).isSome then
    d.map (fun p => if p.1 = k then (k, v) else p)
  else d ++ [(k, v)]

/-- Zero digits contribute nothing. -/
theorem ofDigits_replicate_zero (k : Nat) :
    Nat.ofDigits 10 (List.replicate k (0 : Nat)) = 0 := by
  induction k with
  | zero => simp [Nat.ofDigits]
  | succ m ih => simp [List.replicate_succ, Nat.ofDigits_cons, ih]

/-- `Nat.find` needs a nonempty set of fresh rename candidates: distinct
indices give distinct candidate names. -/
theorem renameCandidate_injective (orig : PyStr) :
    Function.Injective (renameCandidate orig) := by
  have key : ∀ i : Nat,
      Nat.ofDigits 10 (((fmt03 i).map (fun c => c - 48)).reverse) = i := by
    intro i
    unfold fmt03 decDigits
    by_cases hi : i = 0
    · subst hi; decide
    · simp only [hi, if_false, List.map_append, List.map_map,
        List.map_replicate, List.reverse_append, List.reverse_reverse,
        List.reverse_replicate]
      have hmap : (Nat.digits 10 i).reverse.map
          ((fun c => c - 48) ∘ (fun d => 48 + d)) =
          (Nat.digits 10 i).reverse.map id := by
        apply List.map_congr_left
        intro a _
        simp
      rw [hmap, List.map_id, List.reverse_reverse]
      have h48 : (48 - 48 : Nat) = 0 := rfl
      rw [h48, Nat.ofDigits_append, Nat.ofDigits_digits,
        ofDigits_replicate_zero]
      simp
  intro a b hab
  have ha := key a
  have hb := key b
  unfold renameCandidate at hab
  have hf : fmt03 a = fmt03 b := List.append_cancel_left hab
  rw [hf, hb] at ha
  exact ha.symm

/-- There is always a fresh rename candidate outside a finite name set. -/
theorem exists_fresh (names : Finset PyStr) (orig : PyStr) :
    ∃ i : Nat, renameCandidate orig i ∉ names := by
  by_contra hall
  push_neg at hall
  have hsub : (Finset.range (names.card + 1)).image (renameCandidate orig)
      ⊆ names := by
    intro x hx
    obtain ⟨i, _, rfl⟩ := Finset.mem_image.mp hx
    exact hall i
  have hcard := Finset.card_le_card hsub
  rw [Finset.card_image_of_injective _ (renameCandidate_injective orig),
    Finset.card_range] at hcard
  omega

/-- The final value of `node.name` after the clash-resolution loop of
`File.add_child`: the original name when it is free, else the first
fresh numbered candidate. -/
def freshName (names : Finset PyStr) (orig : PyStr) : PyStr :=
  if orig ∈ names then
    renameCandidate orig (Nat.find (exists_fresh names orig))
  else orig

/-- `File.add_child`: a no-op when the node is already a child,
otherwise rename on clash and add to `children`/`children_names`.  The
parent is re-read after the rename so that a node added to itself
behaves like the aliased Python objects. -/
def add_child (h : Heap) (pid cid : Nat) : Heap :=
  let p := heapGet h pid
  if cid ∈ p.children then h
  else
    let c := heapGet h cid
    let newName := freshName p.children_names c.name
    let h1 := heapSet h cid { c with name := newName }
    let p1 := heapGet h1 pid
    heapSet h1 pid
      { p1 with children := insert cid p1.children,
                children_names := insert newName p1.children_names }

/-- A `core_types.Partition` (the `scanner` back-reference and
`fs_type` string play no role in the verified properties). -/
structure Partition where
  root_id : Idx
  size : Option Int
  offset : Option Int
  root : Option Nat
  lost : Nat
  files : List (Idx × Nat)
  recoverable : Bool
  deriving DecidableEq

/-- A partition together with the heap its `File` objects live in. -/
structure PState where
  heap : Heap
  part : Partition
  deriving DecidableEq

/-- `Partition.__init__`: fresh `lost` directory, empty `files`. -/
def mkPartition (h : Heap) (root_id : Idx) : PState :=
  let (h1, lostId) :=
    halloc h (mkFile (Sum.inl (-1)) [76, 111, 115, 116, 70, 105, 108, 101, 115]
      (some 0) true false true)
  { heap := h1,
    part := ⟨root_id, Option.none, Option.none, Option.none, lostId, [], false⟩ }

/-- `Partition.add_file`. -/
def add_file (s : PState) (oid : Nat) : PState :=
  { s with part :=
      { s.part with files := fdSet s.part.files (heapGet s.heap oid).index oid } }

/-- `Partition.set_root`: `TypeError` (`Option.none`) unless the node
is a directory; sets the root pointer and clears the node's parent. -/
def set_root (s : PState) (oid : Nat) : Option PState :=
  if (heapGet s.heap oid).is_directory then
    some { heap := heapSet s.heap oid ({ heapGet s.heap oid with parent := Option.none }),
           part := { s.part with root := some oid } }
  else Option.none

/-- The literal name `'Root'`. -/
def rootName : PyStr := [82, 111, 111, 116]

/-- The ghost-directory name `'Dir_' + str(parent_id)`. -/
def dirName (parent_id : Idx) : PyStr := [68, 105, 114, 95] ++ idxStr parent_id

/-- One iteration of the `rebuild` loop, for dictionary key
`identifier` of the snapshot. -/
def rebuildStep (root_id : Idx) (s : PState) (identifier : Idx) :
    Option PState :=
  match fdGet s.part.files identifier with
  | Option.none => Option.none
  | some nodeId =>
    let node := heapGet s.heap nodeId
    if node.index = root_id then do
      let s1 ← set_root s nodeId
      let renamed := { heapGet s1.heap nodeId with name := rootName }
      pure { s1 with heap := heapSet s1.heap nodeId renamed }
    else
      match node.parent with
      | Option.none =>
          let orphaned := { node with parent := some (Sum.inl (-1)) }
          let s1 := { s with heap := heapSet s.heap nodeId orphaned }
          pure { s1 with heap := add_child s1.heap s1.part.lost nodeId }
      | some parent_id =>
          match fdGet s.part.files parent_id with
          | some parentId =>
              pure { s with heap := add_child s.heap parentId nodeId }
          | Option.none =>
              let g0 := mkFile parent_id (dirName parent_id) (some 0)
                true false true
              let ghost := { g0 with parent := some (Sum.inl (-1)) }
              let (h1, gid) := halloc s.heap ghost
              let s1 : PState :=
                ⟨h1, { s.part with files := fdSet s.part.files parent_id gid }⟩
              let s2 := { s1 with heap := add_child s1.heap s1.part.lost gid }
              pure { s2 with heap := add_child s2.heap gid nodeId }

/-- `Partition.rebuild`: synthesize the root entry when missing, then
process every snapshot key.  The only failure point is the `TypeError`
of `set_root` on a non-directory root entry. -/
def rebuild (s : PState) : Option PState :=
  let s1 :=
    if (fdGet s.part.files s.part.root_id).isNone then
      let (h1, oid) := halloc s.heap
        (mkFile s.part.root_id rootName (some 0) true false true)
      { heap := h1,
        part := { s.part with files := fdSet s.part.files s.part.root_id oid } }
    else s
  (s1.part.files.map (fun p => p.1)).foldlM (rebuildStep s.part.root_id) s1

/-- `Partition.__getitem__`: the `files` entry, else the `lost`
directory when the index equals its index, else `KeyError`. -/
def pgetitem (s : PState) (index : Idx) : Option Nat :=
  match fdGet s.part.files index with
  | some oid => some oid
  | Option.none =>
      if index = (heapGet s.heap s.part.lost).index then some s.part.lost
      else Option.none

/-- `Partition.get`: `__getitem__` with the `KeyError` turned into the
default. -/
def pget (s : PState) (index : Idx) (dflt : Option Nat) : Option Nat :=
  match pgetitem s index with
  | some oid => some oid
  | Option.none => dflt

/-! ### Step G of `NTFSScanner.get_partitions`: merging fragmented $MFT

The final loop of `get_partitions` re-parses FILE record 0 of a
partition; when its `$DATA` runlist has more than one run it walks the
subsequent runs and merges fragment partitions found in
`partitioned_files`.  The embedding abstracts the parsed state into
the data the loop actually consumes: the primary partition (with a
known `offset` and `sec_per_clus`) and the decoded `(offset, length)`
run pairs.  Partitions are reduced to the fields the loop reads, and a
file to its ghost flag plus an identifying payload. -/

structure GFile where
  is_ghost : Bool
  uid : Nat
  deriving DecidableEq, Repr

structure GPart where
  offset : Option Int
  sec_per_clus : Option Int
  mft_pos : Option Int
  files : List (Int × GFile)
  deriving DecidableEq, Repr

/-- Read a file entry of a partition. -/
def gfGet (d : List (Int × GFile)) (k : Int) : Option GFile :=
  (d.find? (fun p => p.1 == k)).map (fun p => p.2)

/-- Write a file entry (`Partition.add_file`, insertion-ordered). -/
def gfSet (d : List (Int × GFile)) (k : Int) (v : GFile) :
    List (Int × GFile) :=
  if (d.find? (fun p => p.1 == k)).isSome then
    d.map (fun p => if p.1 == k then (k, v) else p)
  else d ++ [(k, v)]

/-- `utils.merge`: insert every file of `piece` into `part` unless the
destination already holds a non-ghost entry at that index. -/
def mergeFiles (dst : List (Int × GFile)) (src : List (Int × GFile)) :
    List (Int × GFile) :=
  src.foldl
    (fun fs p =>
      match gfGet fs p.1 with
      | Option.none => gfSet fs p.1 p.2
      | some g => if g.is_ghost then gfSet fs p.1 p.2 else fs)
    dst

def merge (part piece : GPart) : GPart :=
  { part with files := mergeFiles part.files piece.files }

/-- The partition map `partitioned_files` (insertion-ordered). -/
abbrev GMap := List (Int × GPart)

def gmGet (m : GMap) (k : Int) : Option GPart :=
  (m.find? (fun p => p.1 == k)).map (fun p => p.2)

/-- Replace the value at a present key (used for the write-back of the
aliased primary object). -/
def gmReplace (m : GMap) (k : Int) (v : GPart) : GMap :=
  m.map (fun p => if p.1 == k then (k, v) else p)

/-- `partitioned_files.pop(k)`. -/
def gmPop (m : GMap) (k : Int) : GMap := m.filter (fun p => p.1 != k)

/-- The conflict list of Step G: indices that are non-ghost in both the
fragment and the primary. -/
def gconflicts (piece part : GPart) : List Int :=
  (piece.files.filter
    (fun p => !p.2.is_ghost &&
      (match gfGet part.files p.1 with
       | some g => !g.is_ghost
       | Option.none => false))).map (fun p => p.1)

/-- The `for entry in runlist[1:]` loop of Step G for one primary
partition: `part` is the aliased `partitioned_files[primaryKey]`
object, `mp` the map (still containing the primary).  `spc` is
`part.sec_per_clus` and `po` is `part.offset`. -/
def stepGruns (primaryKey spc po : Int) :
    List (Int × Int) → Int → Int → GPart → GMap → GPart × GMap
  | [], _, _, part, mp => (part, mp)
  | (off, len) :: rest, clusters_pos, size, part, mp =>
      let cpos := clusters_pos + off
      let real_pos := cpos * spc + po
      let position := real_pos - size * spc
      match gmGet mp position with
      | Option.none => stepGruns primaryKey spc po rest cpos (size + len) part mp
      | some piece =>
          if piece.offset = Option.none ∨ piece.offset = some po then
            if (gconflicts piece part).length = 0 then
              let part1 := merge part piece
              let mp1 := gmPop (gmReplace mp primaryKey part1) position
              stepGruns primaryKey spc po rest cpos (size + len) part1 mp1
            else stepGruns primaryKey spc po rest cpos (size + len) part mp
          else stepGruns primaryKey spc po rest cpos (size + len) part mp

/-- Step G for one primary partition whose FILE record 0 has the
decoded `$DATA` runlist `runs`: nothing happens unless the runlist has
more than one run; otherwise the subsequent runs are walked starting
from the first run's offset and length. -/
def stepGpart (primaryKey spc po : Int) (runs : List (Int × Int))
    (part : GPart) (mp : GMap) : GPart × GMap :=
  match runs with
  | (o0, l0) :: (r1 :: rest) =>
      stepGruns primaryKey spc po (r1 :: rest) o0 l0 part mp
  | _ => (part, mp)

/-! ### Concrete states used by the evaluation theorems -/

/-- A partition holding one orphan file `#7` (no parent recorded), as
produced by a scan of a record without a resolvable `$FILE_NAME`
parent. -/
def orphanPart : PState :=
  let s := mkPartition [] (Sum.inl 5)
  let p := halloc s.heap (mkFile (Sum.inl 7) [102] (some 0) false false false)
  add_file { s with heap := p.1 } p.2

/-- The file keys of a partition state. -/
def filesKeys (s : PState) : List Idx := s.part.files.map (fun p => p.1)

/-- A partition with two files that are each other's parent (corrupted
parent links forming a cycle). -/
def cyclePart : PState :=
  let s := mkPartition [] (Sum.inl 5)
  let p1 := halloc s.heap
    ({ mkFile (Sum.inl 1) [97] (some 0) true false false with
       parent := some (Sum.inl 2) })
  let p2 := halloc p1.1
    ({ mkFile (Sum.inl 2) [98] (some 0) true false false with
       parent := some (Sum.inl 1) })
  let s1 := add_file { s with heap := p2.1 } p1.2
  add_file s1 p2.2

/-- Parent link of the file bound at index `i`, read through the
partition dictionary. -/
def parentAt (s : PState) (i : Idx) : Option (Option Idx) :=
  (fdGet s.part.files i).map (fun oid => (heapGet s.heap oid).parent)

/-! ### Claim theorems -/

/-- C1: `Partition.rebuild` is *not* idempotent.  On a partition with a
single orphan file, the first `rebuild` parents the orphan to the
`-1` sentinel; the second run treats `-1` as a missing parent
directory and inserts a ghost `Dir_-1` entry under key `-1`, so the
file map differs from the single-`rebuild` result.  This contradicts
the `-1`-as-`lost` design of `Partition.__getitem__` and the
multiple-rebuild guard of `File.add_child`. -/
theorem rebuild_not_idempotent_on_orphans :
    (rebuild orphanPart).map filesKeys =
      some [Sum.inl 7, Sum.inl 5] ∧
    ((rebuild orphanPart).bind rebuild).map filesKeys =
      some [Sum.inl 7, Sum.inl 5, Sum.inl (-1)] := by
  constructor <;> rfl

/-- C4 counterexample: on a two-node parent cycle, `rebuild` succeeds
but performs no cycle detection: each node keeps the other as parent
(neither is orphaned to `-1`), so the root-ward walk `1 → 2 → 1`
revisits node 1 without it being moved into `lost`. -/
theorem rebuild_cycle_not_broken :
    (rebuild cyclePart).map (fun s => parentAt s (Sum.inl 1)) =
      some (some (some (Sum.inl 2))) ∧
    (rebuild cyclePart).map (fun s => parentAt s (Sum.inl 2)) =
      some (some (some (Sum.inl 1))) := by
  constructor <;> rfl

/-- C2: a run whose header has offset-field length 0 (a sparse run) is
*not* returned by `runlist_unpack`: the empty offset field decodes to
`None`, which terminates the loop.  On the runlist `01 05 00` (one
sparse run of length 5, then the terminator) the decoder returns `[]`
instead of the sparse piece `(None, 5)`, although the sparse-run
branch of `NTFSFile.content_iterator` expects such pieces. -/
theorem runlist_unpack_drops_sparse_run (utf16 : Bytes → Option PyStr) :
    runlist_unpack utf16 [1, 5, 0] = [] ∧
    ([] : List (Val × Val)) ≠ [(Val.none, Val.int 5)] := by
  refine ⟨?_, by simp⟩
  rw [runlist_unpack]
  rfl

/-- C2 witness: the theorem applied to a concrete codec. -/
theorem runlist_unpack_drops_sparse_run_witness :
    runlist_unpack (fun _ => Option.none) [1, 5, 0] = [] ∧
    ([] : List (Val × Val)) ≠ [(Val.none, Val.int 5)] :=
  runlist_unpack_drops_sparse_run (fun _ => Option.none)

/-- The pattern (and text) of the C3 counterexample: the same symbol
at keys 0 and 1. -/
def c3pattern : SparseList (Option Int) :=
  ⟨[0, 1], [(0, some 1), (1, some 1)], Option.none⟩

/-- C3 counterexample: the pattern `{0 ↦ 1, 1 ↦ 1}` is embedded
verbatim in the text (equal to it) at offset 0 ≤ stop, and
`k_min = 1 ≤ 2` populated keys, yet the returned support is 1, not the
number of populated pattern keys: `preprocess_pattern` skips the
second occurrence because the symbol `1` compares equal to the
previously recorded offset `1`. -/
theorem approximate_matching_support_counterexample :
    (approximate_matching c3pattern c3pattern 0 1).map
      (fun r => (decide (0 ∈ r.1), r.1.card, r.2.1)) =
      some (true, 2, 1) ∧
    c3pattern.keys.length = 2 ∧ (1 : Int) ≠ 2 := by
  refine ⟨by decide, by decide, by decide⟩

/-- The primary partition of the C5 counterexample. -/
def c5primary : GPart := ⟨some 0, some 1, some 1000, [(0, ⟨false, 1⟩)]⟩

/-- The fragment whose `mft_pos` equals the subsequent run's absolute
start sector. -/
def c5fragment : GPart := ⟨Option.none, Option.none, some 150, [(5, ⟨false, 2⟩)]⟩

def c5map : GMap := [(1000, c5primary), (150, c5fragment)]

/-- C5 counterexample: the $MFT runlist `[(100,10),(50,5)]` of the
primary (offset 0, one sector per cluster) has a subsequent run with
absolute start sector `(100+50)*1+0 = 150`; a fragment with
`mft_pos = 150` is in the map, its offset is `None` and there are no
non-ghost conflicts — yet Step G merges nothing and removes nothing,
because the code looks up `150 - 10*1 = 140` (start sector minus the
sectors of the preceding runs), not the start sector itself. -/
theorem stepG_start_sector_not_merge_key :
    ((100 + 50) * 1 + 0 : Int) = 150 ∧
    gmGet c5map 150 = some c5fragment ∧
    c5fragment.mft_pos = some 150 ∧
    c5fragment.offset = Option.none ∧
    gconflicts c5fragment c5primary = [] ∧
    stepGpart 1000 1 0 [(100, 10), (50, 5)] c5primary c5map =
      (c5primary, c5map) := by
  refine ⟨by decide, by rfl, by rfl, by rfl, by rfl, by rfl⟩

/-- C8 counterexample: an out-of-bounds byte range does *not* yield
null for every formatter kind: with formatter `'s'` the slice is
clamped, so reading bytes 5..9 of the empty string yields the empty
byte string, not `None`. -/
theorem unpack_oob_s_field_not_null :
    unpack (fun _ => Option.none) []
      [("x", Fmt.s, Bound.lit 5, Bound.lit 9)] =
      Except.ok [("x", Val.bytes [])] ∧
    Val.bytes [] ≠ Val.none := by
  refine ⟨by rfl, by simp⟩

/-- A minimal NTFS boot sector for the scanner: contains `"NTFS"` in
its first 8 bytes and ends with `55 AA`. -/
def miniBoot : Bytes := [78, 84, 70, 83, 0x55, 0xAA]

/-- C9 counterexample: feeding the same boot-sector pair twice does not
leave the scanner state identical to feeding it once — `found_boot` is
an ordered list and receives the index twice. -/
theorem feed_boot_not_idempotent :
    (feed (feed ⟨∅, ∅, []⟩ 0 miniBoot).1 0 miniBoot).1.found_boot = [0, 0] ∧
    (feed ⟨∅, ∅, []⟩ 0 miniBoot).1.found_boot = [0] ∧
    ([0, 0] : List Nat) ≠ [0] := by
  refine ⟨by rfl, by rfl, by simp⟩

/-! ### C7: the best-name rule -/

theorem pyStrLe_total : ∀ a b : PyStr, pyStrLe a b || pyStrLe b a := by
  intro a
  induction a with
  | nil => intro b; simp [pyStrLe]
  | cons x xs ih =>
      intro b
      cases b with
      | nil => simp [pyStrLe]
      | cons y ys =>
          by_cases hxy : x < y
          · simp [pyStrLe, hxy]
          · by_cases hyx : y < x
            · simp [pyStrLe, hxy, hyx]
            · have := ih ys
              simp [pyStrLe, hxy, hyx]
              simpa using this

theorem pyStrLe_trans :
    ∀ a b c : PyStr, pyStrLe a b = true → pyStrLe b c = true →
      pyStrLe a c = true := by
  intro a
  induction a with
  | nil => intro b c _ _; simp [pyStrLe]
  | cons x xs ih =>
      intro b c hab hbc
      cases b with
      | nil => simp [pyStrLe] at hab
      | cons y ys =>
          cases c with
          | nil => simp [pyStrLe] at hbc
          | cons z zs =>
              simp only [pyStrLe] at hab hbc ⊢
              by_cases hxy : x < y <;> by_cases hyz : y < z
              · simp [show x < z from lt_trans hxy hyz]
              · simp only [hyz, if_false] at hbc
                by_cases hzy : z < y
                · simp [hzy] at hbc
                · have hyz2 : y = z := le_antisymm (not_lt.mp hzy) (not_lt.mp hyz)
                  subst hyz2
                  simp [hxy]
              · simp only [hxy, if_false] at hab
                by_cases hyx : y < x
                · simp [hyx] at hab
                · have hxy2 : x = y := le_antisymm (not_lt.mp hyx) (not_lt.mp hxy)
                  subst hxy2
                  simp [hyz]
              · simp only [hxy, if_false] at hab
                simp only [hyz, if_false] at hbc
                by_cases hyx : y < x
                · simp [hyx] at hab
                · by_cases hzy : z < y
                  · simp [hzy] at hbc
                  · have hxy2 : x = y := le_antisymm (not_lt.mp hyx) (not_lt.mp hxy)
                    have hyz2 : y = z := le_antisymm (not_lt.mp hzy) (not_lt.mp hyz)
                    subst hxy2; subst hyz2
                    simp only [lt_irrefl, if_false] at hab hbc ⊢
                    exact ih _ _ hab hbc

theorem pairLe_trans :
    ∀ a b c : Nat × PyStr, pairLe a b = true → pairLe b c = true →
      pairLe a c = true := by
  intro a b c hab hbc
  unfold pairLe at hab hbc ⊢
  by_cases h1 : a.1 < b.1 <;> by_cases h2 : b.1 < c.1
  · simp [lt_trans h1 h2]
  · simp only [h2, if_false] at hbc
    by_cases h3 : c.1 < b.1
    · simp [h3] at hbc
    · have : b.1 = c.1 := le_antisymm (not_lt.mp h3) (not_lt.mp h2)
      simp [this ▸ h1]
  · simp only [h1, if_false] at hab
    by_cases h3 : b.1 < a.1
    · simp [h3] at hab
    · have : a.1 = b.1 := le_antisymm (not_lt.mp h3) (not_lt.mp h1)
      simp [this ▸ h2]
  · simp only [h1, if_false] at hab
    simp only [h2, if_false] at hbc
    by_cases h3 : b.1 < a.1
    · simp [h3] at hab
    · by_cases h4 : c.1 < b.1
      · simp [h4] at hbc
      · have e1 : a.1 = b.1 := le_antisymm (not_lt.mp h3) (not_lt.mp h1)
        have e2 : b.1 = c.1 := le_antisymm (not_lt.mp h4) (not_lt.mp h2)
        simp only [h3, if_false] at hab
        simp only [h4, if_false] at hbc
        rw [e1, e2]
        simp only [lt_irrefl, if_false]
        exact pyStrLe_trans _ _ _ hab hbc

theorem pairLe_total : ∀ a b : Nat × PyStr, pairLe a b || pairLe b a := by
  intro a b
  unfold pairLe
  by_cases h1 : a.1 < b.1
  · simp [h1]
  · by_cases h2 : b.1 < a.1
    · simp [h1, h2]
    · simpa [h1, h2] using pyStrLe_total a.2 b.2

theorem pairLe_fst (a b : Nat × PyStr) (h : pairLe a b = true) : a.1 ≤ b.1 := by
  unfold pairLe at h
  by_cases h1 : a.1 < b.1
  · exact le_of_lt h1
  · by_cases h2 : b.1 < a.1
    · simp [h1, h2] at h
    · exact le_of_not_lt h2

/-- In a pairwise-ordered nonempty list, every element is the last one
or relates to it. -/
theorem pairwise_rel_getLast {α : Type} {R : α → α → Prop} :
    ∀ (l : List α) (h : l ≠ []), l.Pairwise R → ∀ x ∈ l,
      x = l.getLast h ∨ R x (l.getLast h) := by
  intro l
  induction l with
  | nil => intro h; exact absurd rfl h
  | cons a t ih =>
      intro h hp x hx
      cases t with
      | nil =>
          simp only [List.mem_singleton] at hx
          subst hx
          left
          rfl
      | cons b u =>
          rw [List.getLast_cons (by simp)]
          rcases List.mem_cons.mp hx with rfl | hxt
          · right
            have hrel := (List.pairwise_cons.mp hp).1
            have hlast : (b :: u).getLast (by simp) ∈ b :: u :=
              List.getLast_mem _
            exact hrel _ hlast
          · exact ih (by simp) (List.pairwise_cons.mp hp).2 x hxt

/-- C7: for nonempty candidate lists over the namespace codes 0–3,
`best_name` picks (the name of) a Posix (namespace 3) candidate
whenever one exists, else a candidate of minimal namespace; the empty
list gives `None`, and so does an empty chosen name. -/
theorem best_name_spec (entries : List (Nat × PyStr))
    (hne : entries ≠ []) (hns : ∀ p ∈ entries, p.1 ≤ 3) :
    best_name ([] : List (Nat × PyStr)) = Option.none ∧
    ∃ q ∈ entries,
      best_name entries = (if q.2.length = 0 then Option.none else some q.2) ∧
      ((∃ p ∈ entries, p.1 = 3) → q.1 = 3) ∧
      ((¬ ∃ p ∈ entries, p.1 = 3) → ∀ p ∈ entries, q.1 ≤ p.1) := by
  refine ⟨rfl, ?_⟩
  have hperm := List.mergeSort_perm entries pairLe
  have hsorted := List.sorted_mergeSort
    (fun a b c hab hbc => pairLe_trans a b c hab hbc)
    (fun a b => pairLe_total a b) entries
  set sorted := entries.mergeSort pairLe with hsdef
  have hsne : sorted ≠ [] := by
    intro hemp
    rw [hemp] at hperm
    exact hne (List.Perm.nil_eq hperm).symm
  have hlast_mem : sorted.getLast hsne ∈ entries :=
    hperm.mem_iff.mp (List.getLast_mem hsne)
  have hhead_mem : sorted.headD (0, []) ∈ entries := by
    cases hs : sorted with
    | nil => exact absurd hs hsne
    | cons a t =>
        have : a ∈ sorted := by rw [hs]; exact List.mem_cons_self a t
        simpa [hs] using hperm.mem_iff.mp this
  have hlastD : sorted.getLastD (0, []) = sorted.getLast hsne := by
    rw [List.getLastD_eq_getLast?, List.getLast?_eq_getLast sorted hsne]
    rfl
  have hunfold : best_name entries =
      (if (sorted.getLastD (0, [])).1 = 3 then
        (if (sorted.getLastD (0, [])).2.length ≠ 0 then
          some (sorted.getLastD (0, [])).2 else Option.none)
      else
        (if (sorted.headD (0, [])).2.length ≠ 0 then
          some (sorted.headD (0, [])).2 else Option.none)) := by
    unfold best_name
    rw [← hsdef]
    have : ¬ entries.length = 0 := by
      cases entries with
      | nil => exact absurd rfl hne
      | cons a t => simp
    simp only [this, if_false]
    by_cases h3 : (sorted.getLast?.getD (0, [])).1 = 3 <;>
      simp [List.getLastD_eq_getLast?, h3]
  by_cases h3 : (sorted.getLast hsne).1 = 3
  · refine ⟨sorted.getLast hsne, hlast_mem, ?_, fun _ => h3, ?_⟩
    · rw [hunfold, hlastD]
      simp only [h3, if_true]
      by_cases hlen : (sorted.getLast hsne).2.length = 0 <;> simp [hlen]
    · intro hno
      exact absurd ⟨sorted.getLast hsne, hlast_mem, h3⟩ hno
  · refine ⟨sorted.headD (0, []), hhead_mem, ?_, ?_, ?_⟩
    · rw [hunfold, hlastD]
      simp only [h3, if_false]
      by_cases hlen : (sorted.headD (0, [])).2.length = 0 <;> simp [hlen]
    · intro ⟨p, hpmem, hp3⟩
      exfalso
      have hpin : p ∈ sorted := hperm.mem_iff.mpr hpmem
      rcases pairwise_rel_getLast sorted hsne hsorted p hpin with rfl | hrel
      · exact h3 hp3
      · have : p.1 ≤ (sorted.getLast hsne).1 := pairLe_fst _ _ hrel
        have h33 := hns _ hlast_mem
        omega
    · intro _ p hpmem
      have hpin : p ∈ sorted := hperm.mem_iff.mpr hpmem
      cases hs : sorted with
      | nil => exact absurd hs hsne
      | cons a t =>
          rw [hs] at hpin
          rcases List.mem_cons.mp hpin with rfl | hpt
          · simp [hs]
          · have hpair := List.pairwise_cons.mp (by rw [hs] at hsorted; exact hsorted)
            have := pairLe_fst _ _ (hpair.1 p hpt)
            simpa [hs] using this

/-- C7 witness: the theorem applied at a concrete candidate list with
one DOS and one Posix name. -/
theorem best_name_spec_witness :
    ([((0 : Nat), ([97] : PyStr)), (3, [98])] ≠ []) ∧
    (best_name ([] : List (Nat × PyStr)) = Option.none ∧
      ∃ q ∈ [((0 : Nat), ([97] : PyStr)), (3, [98])],
        best_name [((0 : Nat), ([97] : PyStr)), (3, [98])] =
          (if q.2.length = 0 then Option.none else some q.2) ∧
        ((∃ p ∈ [((0 : Nat), ([97] : PyStr)), (3, [98])], p.1 = 3) → q.1 = 3) ∧
        ((¬ ∃ p ∈ [((0 : Nat), ([97] : PyStr)), (3, [98])], p.1 = 3) →
          ∀ p ∈ [((0 : Nat), ([97] : PyStr)), (3, [98])], q.1 ≤ p.1)) :=
  ⟨by decide, best_name_spec _ (by decide) (by decide)⟩

/-! ### C9: scanner classification -/

theorem feedAll_found_file (l : List (Nat × Bytes)) : ∀ s : ScannerState,
    (feedAll s l).found_file = s.found_file ∪
      ((l.filter (fun p => !isBootSector p.2 && isFileRecord p.2)).map
        (fun p => p.1)).toFinset := by
  induction l with
  | nil => intro s; simp [feedAll]
  | cons hd t ih =>
      intro s
      have hstep : feedAll s (hd :: t) = feedAll (feed s hd.1 hd.2).1 t := rfl
      rw [hstep, ih]
      unfold feed
      by_cases hb : isBootSector hd.2 <;> by_cases hf : isFileRecord hd.2 <;>
        by_cases hi : isIndxRecord hd.2 <;>
        simp [hb, hf, hi, List.filter_cons, Finset.insert_union]

theorem feedAll_found_indx (l : List (Nat × Bytes)) : ∀ s : ScannerState,
    (feedAll s l).found_indx = s.found_indx ∪
      ((l.filter (fun p =>
          !isBootSector p.2 && !isFileRecord p.2 && isIndxRecord p.2)).map
        (fun p => p.1)).toFinset := by
  induction l with
  | nil => intro s; simp [feedAll]
  | cons hd t ih =>
      intro s
      have hstep : feedAll s (hd :: t) = feedAll (feed s hd.1 hd.2).1 t := rfl
      rw [hstep, ih]
      unfold feed
      by_cases hb : isBootSector hd.2 <;> by_cases hf : isFileRecord hd.2 <;>
        by_cases hi : isIndxRecord hd.2 <;>
        simp [hb, hf, hi, List.filter_cons, Finset.insert_union]

theorem feedAll_found_boot (l : List (Nat × Bytes)) : ∀ s : ScannerState,
    (feedAll s l).found_boot = s.found_boot ++
      (l.filter (fun p => isBootSector p.2)).map (fun p => p.1) := by
  induction l with
  | nil => intro s; simp [feedAll]
  | cons hd t ih =>
      intro s
      have hstep : feedAll s (hd :: t) = feedAll (feed s hd.1 hd.2).1 t := rfl
      rw [hstep, ih]
      unfold feed
      by_cases hb : isBootSector hd.2 <;> by_cases hf : isFileRecord hd.2 <;>
        by_cases hi : isIndxRecord hd.2 <;>
        simp [hb, hf, hi, List.filter_cons]

/-- C9 amended: classification is idempotent for FILE/INDX/unclassified
sectors (the whole scanner state, including the returned tag, is
unchanged by a repeated feed), but a boot sector appends its index to
the `found_boot` list on every feed; the set components `found_file`
and `found_indx` are order-independent, while `found_boot` is
order-dependent as a list and order-independent only up to
permutation. -/
theorem feed_sets_idempotent_boot_appends :
    (∀ (s : ScannerState) (i : Nat) (sec : Bytes),
        isBootSector sec = false →
        feed (feed s i sec).1 i sec = feed s i sec) ∧
    (∀ (s : ScannerState) (i : Nat) (sec : Bytes),
        isBootSector sec = true →
        (feed (feed s i sec).1 i sec).1.found_boot =
          s.found_boot ++ [i, i]) ∧
    (∀ (s : ScannerState) (l1 l2 : List (Nat × Bytes)), l1.Perm l2 →
        (feedAll s l1).found_file = (feedAll s l2).found_file ∧
        (feedAll s l1).found_indx = (feedAll s l2).found_indx ∧
        (feedAll s l1).found_boot.Perm (feedAll s l2).found_boot) := by
  refine ⟨?_, ?_, ?_⟩
  · intro s i sec hb
    unfold feed
    by_cases hf : isFileRecord sec <;> by_cases hi : isIndxRecord sec <;>
      simp [hb, hf, hi, Finset.insert_idem]
  · intro s i sec hb
    unfold feed
    simp [hb]
  · intro s l1 l2 hperm
    refine ⟨?_, ?_, ?_⟩
    · rw [feedAll_found_file, feedAll_found_file]
      rw [List.toFinset_eq_of_perm _ _ ((hperm.filter _).map (fun p => p.1))]
    · rw [feedAll_found_indx, feedAll_found_indx]
      rw [List.toFinset_eq_of_perm _ _ ((hperm.filter _).map (fun p => p.1))]
    · rw [feedAll_found_boot, feedAll_found_boot]
      exact ((hperm.filter _).map (fun p => p.1)).append_left _

/-- C9 witness: the theorem applied at a boot sector, a FILE sector and
a two-element permutation. -/
theorem feed_sets_idempotent_boot_appends_witness :
    (isBootSector ([70, 73, 76, 69] : Bytes) = false ∧
     isBootSector miniBoot = true ∧
     ([(0, miniBoot), (1, ([70, 73, 76, 69] : Bytes))].Perm
       [(1, ([70, 73, 76, 69] : Bytes)), (0, miniBoot)])) ∧
    (feed (feed ⟨∅, ∅, []⟩ 1 [70, 73, 76, 69]).1 1 [70, 73, 76, 69] =
      feed ⟨∅, ∅, []⟩ 1 [70, 73, 76, 69]) ∧
    ((feed (feed ⟨∅, ∅, []⟩ 0 miniBoot).1 0 miniBoot).1.found_boot =
      [] ++ [0, 0]) ∧
    ((feedAll ⟨∅, ∅, []⟩ [(0, miniBoot), (1, [70, 73, 76, 69])]).found_boot.Perm
      (feedAll ⟨∅, ∅, []⟩ [(1, [70, 73, 76, 69]), (0, miniBoot)]).found_boot) :=
  ⟨⟨by decide, by decide, by decide⟩,
   feed_sets_idempotent_boot_appends.1 _ _ _ (by decide),
   feed_sets_idempotent_boot_appends.2.1 _ _ _ (by decide),
   (feed_sets_idempotent_boot_appends.2.2 _ _ _ (by decide)).2.2⟩

/-! ### C5: the Step G merge trigger -/

/-- C5 amended: with a two-run $MFT runlist, the fragment looked up is
the one keyed (i.e. with `mft_pos`) at the subsequent run's absolute
start sector *minus* the sectors of the preceding run; merge happens
exactly when additionally the fragment's offset is `None` or the
primary's, and there is no index that is non-ghost in both; on a
conflict, or when no partition is keyed there, nothing changes. -/
theorem stepG_merge_characterization
    (mp : GMap) (part q : GPart) (pk spc po o0 l0 o1 l1 : Int)
    (hpo : part.offset = some po) :
    (gmGet mp ((o0 + o1) * spc + po - l0 * spc) = some q →
      (((q.offset = Option.none ∨ q.offset = some po) ∧
          (gconflicts q part).length = 0) →
        stepGpart pk spc po [(o0, l0), (o1, l1)] part mp =
          (merge part q,
            gmPop (gmReplace mp pk (merge part q))
              ((o0 + o1) * spc + po - l0 * spc))) ∧
      (((q.offset = Option.none ∨ q.offset = some po) ∧
          (gconflicts q part).length ≠ 0) →
        stepGpart pk spc po [(o0, l0), (o1, l1)] part mp = (part, mp)) ∧
      (¬(q.offset = Option.none ∨ q.offset = some po) →
        stepGpart pk spc po [(o0, l0), (o1, l1)] part mp = (part, mp))) ∧
    (gmGet mp ((o0 + o1) * spc + po - l0 * spc) = Option.none →
      stepGpart pk spc po [(o0, l0), (o1, l1)] part mp = (part, mp)) := by
  clear hpo
  constructor
  · intro hq
    refine ⟨?_, ?_, ?_⟩
    · intro ⟨hoff, hcon⟩
      simp only [stepGpart, stepGruns, hq, hoff, hcon]
      simp [hoff, hcon]
    · intro ⟨hoff, hcon⟩
      simp only [stepGpart, stepGruns, hq]
      simp [hoff, hcon]
    · intro hoff
      simp only [stepGpart, stepGruns, hq]
      simp [hoff]
  · intro hq
    simp only [stepGpart, stepGruns, hq]

/-- C5 witness: the characterization applied at the counterexample map,
where the code-aligned position `140` holds no partition. -/
theorem stepG_merge_characterization_witness :
    (c5primary.offset = some 0) ∧
    (gmGet c5map ((100 + 50) * 1 + 0 - 10 * 1) = Option.none →
      stepGpart 1000 1 0 [(100, 10), (50, 5)] c5primary c5map =
        (c5primary, c5map)) :=
  ⟨by decide,
   (stepG_merge_characterization c5map c5primary c5fragment 1000 1 0
      100 10 50 5 (by decide)).2⟩

/-! ### C8: decoder totality -/

/-- Marker for the `'utf-16'` formatter kind. -/
def isUtfFmt : Fmt → Bool
  | .utf => true
  | _ => false

theorem processField_ok_of_not_utf (utf16 : Bytes → Option PyStr)
    (data : Bytes) (result : List (String × Val))
    (field : String × Fmt × Bound × Bound)
    (hf : isUtfFmt field.2.1 = false) :
    ∃ r, processField utf16 data result field = Except.ok r := by
  obtain ⟨label, fmtk, lo, hi⟩ := field
  unfold processField
  cases hl : evalBound lo result <;> cases hh : evalBound hi result <;>
    cases fmtk <;> simp_all [isUtfFmt] <;>
    (try exact ⟨_, rfl⟩) <;>
    (first
      | (split <;> exact ⟨_, rfl⟩)
      | exact ⟨_, rfl⟩)

/-- C8 amended: the decoder is pure; without `'utf-16'` fields it never
fails; a null bound yields a null field; an integer field whose byte
range is empty (in particular out of bounds) yields null; but an `'s'`
field always yields the clamped — possibly empty — byte string, never
null. -/
theorem unpack_total_without_utf :
    (∀ (utf16 : Bytes → Option PyStr) (data : Bytes)
        (fmt : List (String × Fmt × Bound × Bound)),
      (∀ f ∈ fmt, isUtfFmt f.2.1 = false) →
      ∃ r, unpack utf16 data fmt = Except.ok r) ∧
    (∀ utf16 data result label fmtk lo hi,
      (evalBound lo result = Option.none ∨
       evalBound hi result = Option.none) →
      processField utf16 data result (label, fmtk, lo, hi) =
        Except.ok (dset result label Val.none)) ∧
    (∀ utf16 data result label be sgn lo hi lowv highv,
      evalBound lo result = some lowv → evalBound hi result = some highv →
      pySlice data lowv (highv + 1) = [] →
      processField utf16 data result (label, Fmt.i be sgn, lo, hi) =
        Except.ok (dset result label Val.none)) ∧
    (∀ utf16 data result label lo hi lowv highv,
      evalBound lo result = some lowv → evalBound hi result = some highv →
      processField utf16 data result (label, Fmt.s, lo, hi) =
        Except.ok (dset result label (Val.bytes (pySlice data lowv (highv + 1))))) := by
  refine ⟨?_, ?_, ?_, ?_⟩
  · intro utf16 data fmt
    suffices h : ∀ (acc : List (String × Val)),
        (∀ f ∈ fmt, isUtfFmt f.2.1 = false) →
        ∃ r, fmt.foldlM (processField utf16 data) acc = Except.ok r by
      intro hno
      exact h [] hno
    induction fmt with
    | nil => intro acc _; exact ⟨acc, rfl⟩
    | cons hd t ih =>
        intro acc hno
        obtain ⟨r1, hr1⟩ := processField_ok_of_not_utf utf16 data acc hd
          (hno hd (List.mem_cons_self hd t))
        obtain ⟨r2, hr2⟩ := ih r1
          (fun f hf => hno f (List.mem_cons_of_mem hd hf))
        refine ⟨r2, ?_⟩
        rw [List.foldlM_cons, hr1]
        exact hr2
  · intro utf16 data result label fmtk lo hi hnull
    rcases hnull with h | h
    · cases hh : evalBound hi result <;> simp [processField, h, hh]
    · cases hl : evalBound lo result <;> simp [processField, h, hl]
  · intro utf16 data result label be sgn lo hi lowv highv hlo hhi hempty
    simp [processField, hlo, hhi, hempty]
  · intro utf16 data result label lo hi lowv highv hlo hhi
    simp [processField, hlo, hhi]

/-- C8 witness: totality on a two-field integer format over short data,
and the concrete step conclusions. -/
theorem unpack_total_without_utf_witness :
    (∀ f ∈ [("a", Fmt.i false false, Bound.lit 0, Bound.lit 1),
            ("b", Fmt.s, Bound.lit 9, Bound.lit 12)],
        isUtfFmt f.2.1 = false) ∧
    (∃ r, unpack (fun _ => Option.none) [7]
      [("a", Fmt.i false false, Bound.lit 0, Bound.lit 1),
       ("b", Fmt.s, Bound.lit 9, Bound.lit 12)] = Except.ok r) ∧
    processField (fun _ => Option.none) [7] [] ("c", Fmt.i false false,
      Bound.lit 5, Bound.lit 6) = Except.ok (dset [] "c" Val.none) :=
  ⟨by decide,
   unpack_total_without_utf.1 _ _ _ (by decide),
   unpack_total_without_utf.2.2.1 (fun _ => Option.none) [7] [] "c"
     false false (Bound.lit 5) (Bound.lit 6) 5 6 rfl rfl (by decide)⟩

/-! ### C6: SparseList semantics -/

/-- The representation invariant of `SparseList` stated by the spec:
sorted key list, keys exactly the dictionary keys (with no duplicate
dictionary entries), and no stored value equal to the default. -/
def SLWf {V : Type} (s : SparseList V) : Prop :=
  s.keys.Pairwise (· < ·) ∧
  (s.elements.map (fun p => p.1)).Nodup ∧
  (∀ k : Int, k ∈ s.keys ↔ k ∈ s.elements.map (fun p => p.1)) ∧
  (∀ p ∈ s.elements, p.2 ≠ s.default)

/-- A point-set or interval-wipe operation. -/
inductive SLOp (V : Type) where
  | set (i : Int) (v : V)
  | wipe (b t : Int)

def applyOp {V : Type} [DecidableEq V] (s : SparseList V) : SLOp V → SparseList V
  | .set i v => slSet s i v
  | .wipe b t => wipe_interval s b t

def applyOps {V : Type} [DecidableEq V] (s : SparseList V)
    (ops : List (SLOp V)) : SparseList V :=
  ops.foldl applyOp s

theorem find?_filter_imp {α : Type} (l : List α) (p q : α → Bool)
    (h : ∀ x, p x = true → q x = true) :
    (l.filter q).find? p = l.find? p := by
  induction l with
  | nil => rfl
  | cons a t ih =>
      by_cases hq : q a
      · by_cases hp : p a <;> simp [List.filter_cons, hq, List.find?_cons, hp, ih]
      · have hp : ¬ p a = true := fun hpa => hq (h a hpa)
        simp [List.filter_cons, hq, List.find?_cons, hp, ih]

theorem mem_insort (l : List Int) (x : Int) :
    ∀ y, y ∈ insort l x ↔ y = x ∨ y ∈ l := by
  induction l with
  | nil => intro y; simp [insort]
  | cons a t ih =>
      intro y
      by_cases hc : x < a
      · simp [insort, hc]
      · simp only [insort, hc, if_false, List.mem_cons, ih y]
        tauto

theorem insort_pairwise (l : List Int) (x : Int)
    (hp : l.Pairwise (· < ·)) (hx : x ∉ l) :
    (insort l x).Pairwise (· < ·) := by
  induction l with
  | nil => simp [insort]
  | cons a t ih =>
      obtain ⟨ha, ht⟩ := List.pairwise_cons.mp hp
      by_cases hc : x < a
      · rw [insort, if_pos hc]
        refine List.pairwise_cons.mpr ⟨?_, hp⟩
        intro y hy
        rcases List.mem_cons.mp hy with rfl | hyt
        · exact hc
        · exact lt_trans hc (ha y hyt)
      · rw [insort, if_neg hc]
        refine List.pairwise_cons.mpr ⟨?_, ih ht (fun h => hx (List.mem_cons_of_mem a h))⟩
        intro y hy
        rcases (mem_insort t x y).mp hy with rfl | hyt
        · rcases lt_or_eq_of_le (not_lt.mp hc) with h | h
          · exact h
          · exact absurd h.symm (fun hh => hx (hh ▸ List.mem_cons_self a t))
        · exact ha y hyt

/-- The searched key is present exactly when `find?` succeeds. -/
theorem find?_fst_isSome {V : Type} [DecidableEq V]
    (l : List (Int × V)) (i : Int) :
    (l.find? (fun p => p.1 == i)).isSome = true ↔
      i ∈ l.map (fun p => p.1) := by
  rw [List.find?_isSome]
  constructor
  · intro ⟨x, hx, hpx⟩
    simp only [beq_iff_eq] at hpx
    exact List.mem_map.mpr ⟨x, hx, hpx⟩
  · intro h
    obtain ⟨x, hx, hxi⟩ := List.mem_map.mp h
    exact ⟨x, hx, by simp [hxi]⟩

/-- `__setitem__` equation: deleting a stored key. -/
theorem slSet_eq_del {V : Type} [DecidableEq V] {s : SparseList V}
    {i : Int} {v : V} (hd : v = s.default)
    (hp : (s.elements.find? (fun p => p.1 == i)).isSome) :
    slSet s i v = { s with
      elements := s.elements.filter (fun p => p.1 != i),
      keys := s.keys.erase i } := by
  unfold slSet
  rw [if_pos hd, if_pos hp]

/-- `__setitem__` equation: writing the default at an absent key. -/
theorem slSet_eq_noop {V : Type} [DecidableEq V] {s : SparseList V}
    {i : Int} {v : V} (hd : v = s.default)
    (hp : ¬ (s.elements.find? (fun p => p.1 == i)).isSome) :
    slSet s i v = s := by
  unfold slSet
  rw [if_pos hd, if_neg hp]

/-- `__setitem__` equation: overwriting a stored key. -/
theorem slSet_eq_replace {V : Type} [DecidableEq V] {s : SparseList V}
    {i : Int} {v : V} (hd : ¬ v = s.default)
    (hp : (s.elements.find? (fun p => p.1 == i)).isSome) :
    slSet s i v = { s with
      elements := s.elements.map (fun p => if p.1 == i then (i, v) else p) } := by
  unfold slSet
  rw [if_neg hd]
  simp only [hp, if_true]

/-- `__setitem__` equation: inserting a fresh key. -/
theorem slSet_eq_insert {V : Type} [DecidableEq V] {s : SparseList V}
    {i : Int} {v : V} (hd : ¬ v = s.default)
    (hp : ¬ (s.elements.find? (fun p => p.1 == i)).isSome) :
    slSet s i v = { s with
      elements := s.elements ++ [(i, v)],
      keys := insort s.keys i } := by
  unfold slSet
  rw [if_neg hd]
  simp only [hp, if_false]
  simp

theorem slSet_wf {V : Type} [DecidableEq V] (s : SparseList V) (i : Int)
    (v : V) (hwf : SLWf s) : SLWf (slSet s i v) := by
  obtain ⟨hsort, hnodup, hmem, hval⟩ := hwf
  by_cases hd : v = s.default
  · by_cases hp : (s.elements.find? (fun p => p.1 == i)).isSome
    · rw [slSet_eq_del hd hp]
      refine ⟨?_, ?_, ?_, ?_⟩
      · exact List.Pairwise.sublist (List.erase_sublist i s.keys) hsort
      · exact List.Nodup.sublist
          (List.Sublist.map _ (List.filter_sublist s.elements)) hnodup
      · intro k
        have hknd : s.keys.Nodup := hsort.nodup
        show k ∈ s.keys.erase i ↔ _
        rw [List.Nodup.mem_erase_iff hknd]
        constructor
        · intro ⟨hne, hk⟩
          obtain ⟨p, hpmem, hpk⟩ := List.mem_map.mp ((hmem k).mp hk)
          refine List.mem_map.mpr ⟨p, List.mem_filter.mpr ⟨hpmem, ?_⟩, hpk⟩
          subst hpk
          simpa using hne
        · intro hk
          obtain ⟨p, hpf, hpk⟩ := List.mem_map.mp hk
          obtain ⟨hpmem, hpne⟩ := List.mem_filter.mp hpf
          subst hpk
          exact ⟨by simpa using hpne,
            (hmem p.1).mpr (List.mem_map.mpr ⟨p, hpmem, rfl⟩)⟩
      · intro p hp2
        exact hval p (List.mem_filter.mp hp2).1
    · rw [slSet_eq_noop hd hp]
      exact ⟨hsort, hnodup, hmem, hval⟩
  · by_cases hp : (s.elements.find? (fun p => p.1 == i)).isSome
    · rw [slSet_eq_replace hd hp]
      have hfst : (s.elements.map (fun p =>
          if p.1 == i then (i, v) else p)).map (fun p => p.1) =
          s.elements.map (fun p => p.1) := by
        rw [List.map_map]
        apply List.map_congr_left
        intro p _
        by_cases hpi : p.1 = i <;> simp [hpi]
      refine ⟨hsort, ?_, ?_, ?_⟩
      · show ((s.elements.map _).map _).Nodup
        rw [hfst]; exact hnodup
      · intro k
        show k ∈ s.keys ↔ _
        rw [hfst]; exact hmem k
      · intro p hp2
        obtain ⟨q, hq, hqp⟩ := List.mem_map.mp hp2
        by_cases hqi : q.1 = i
        · rw [if_pos (by simpa using hqi)] at hqp
          rw [← hqp]
          simpa using hd
        · rw [if_neg (by simpa using hqi)] at hqp
          rw [← hqp]
          exact hval q hq
    · have hiabs : i ∉ s.elements.map (fun p => p.1) := by
        intro hmem2
        exact hp ((find?_fst_isSome s.elements i).mpr hmem2)
      rw [slSet_eq_insert hd hp]
      refine ⟨?_, ?_, ?_, ?_⟩
      · exact insort_pairwise s.keys i hsort (fun h => hiabs ((hmem i).mp h))
      · show ((s.elements ++ [(i, v)]).map _).Nodup
        rw [List.map_append]
        exact List.nodup_append.mpr ⟨hnodup, List.nodup_singleton i,
          by simpa [List.disjoint_right] using hiabs⟩
      · intro k
        show k ∈ insort s.keys i ↔ k ∈ (s.elements ++ [(i, v)]).map _
        rw [mem_insort, List.map_append]
        simp only [List.map_cons, List.map_nil, List.mem_append,
          List.mem_singleton]
        rw [hmem k]
        tauto
      · intro p hp2
        rcases List.mem_append.mp hp2 with hp1 | hp3
        · exact hval p hp1
        · simp only [List.mem_singleton] at hp3
          subst hp3
          simpa using hd

theorem wipe_wf {V : Type} (s : SparseList V) (b t : Int)
    (hwf : SLWf s) : SLWf (wipe_interval s b t) := by
  obtain ⟨hsort, hnodup, hmem, hval⟩ := hwf
  unfold wipe_interval
  refine ⟨?_, ?_, ?_, ?_⟩
  · exact List.Pairwise.sublist (List.filter_sublist s.keys) hsort
  · exact List.Nodup.sublist
      (List.Sublist.map _ (List.filter_sublist s.elements)) hnodup
  · intro k
    constructor
    · intro hk
      obtain ⟨hk1, hk2⟩ := List.mem_filter.mp hk
      obtain ⟨p, hp, hpk⟩ := List.mem_map.mp ((hmem k).mp hk1)
      exact List.mem_map.mpr ⟨p, List.mem_filter.mpr ⟨hp, hpk ▸ hk2⟩, hpk⟩
    · intro hk
      obtain ⟨p, hp, hpk⟩ := List.mem_map.mp hk
      obtain ⟨hp1, hp2⟩ := List.mem_filter.mp hp
      exact List.mem_filter.mpr
        ⟨(hmem k).mpr (List.mem_map.mpr ⟨p, hp1, hpk⟩), hpk ▸ hp2⟩
  · intro p hp
    exact hval p (List.mem_filter.mp hp).1

theorem find?_map_replace_ne {K V : Type} [DecidableEq K]
    (l : List (K × V)) (i j : K) (v : V) (hj : j ≠ i) :
    (l.map (fun p => if p.1 == i then (i, v) else p)).find?
      (fun p => p.1 == j) = l.find? (fun p => p.1 == j) := by
  induction l with
  | nil => rfl
  | cons a l2 ih =>
      by_cases ha : a.1 = i
      · rw [List.map_cons, if_pos (by simp [ha])]
        rw [List.find?_cons_of_neg _ (by simp [Ne.symm hj]),
          List.find?_cons_of_neg _ (by simp [ha, Ne.symm hj])]
        exact ih
      · rw [List.map_cons, if_neg (by simp [ha])]
        by_cases haj : a.1 = j
        · rw [List.find?_cons_of_pos _ (by simp [haj]),
            List.find?_cons_of_pos _ (by simp [haj])]
        · rw [List.find?_cons_of_neg _ (by simp [haj]),
            List.find?_cons_of_neg _ (by simp [haj])]
          exact ih

theorem find?_map_replace_self {K V : Type} [DecidableEq K]
    (l : List (K × V)) (i : K) (v : V)
    (hp : (l.find? (fun p => p.1 == i)).isSome) :
    (l.map (fun p => if p.1 == i then (i, v) else p)).find?
      (fun p => p.1 == i) = some (i, v) := by
  induction l with
  | nil => simp at hp
  | cons a l2 ih =>
      by_cases ha : a.1 = i
      · rw [List.map_cons, if_pos (by simp [ha])]
        rw [List.find?_cons_of_pos _ (by simp)]
      · rw [List.map_cons, if_neg (by simp [ha])]
        rw [List.find?_cons_of_neg _ (by simp [ha])]
        rw [List.find?_cons_of_neg _ (by simp [ha])] at hp
        exact ih hp

theorem slGet_slSet {V : Type} [DecidableEq V] (s : SparseList V)
    (i j : Int) (v : V) :
    slGet (slSet s i v) j = if j = i then v else slGet s j := by
  by_cases hd : v = s.default
  · by_cases hp : (s.elements.find? (fun p => p.1 == i)).isSome
    · rw [slSet_eq_del hd hp]
      unfold slGet
      by_cases hj : j = i
      · subst hj
        rw [if_pos rfl]
        have hnone : (s.elements.filter (fun p => p.1 != j)).find?
            (fun p => p.1 == j) = Option.none := by
          rw [List.find?_eq_none]
          intro p hp2
          have := (List.mem_filter.mp hp2).2
          simpa using this
        show (match (s.elements.filter (fun p => p.1 != j)).find?
            (fun p => p.1 == j) with
          | some p => p.2
          | Option.none => s.default) = v
        rw [hnone, hd]
      · rw [if_neg hj]
        show (match (s.elements.filter (fun p => p.1 != i)).find?
            (fun p => p.1 == j) with
          | some p => p.2
          | Option.none => s.default) = _
        rw [find?_filter_imp _ _ _
          (fun p hpj => by simp only [beq_iff_eq] at hpj; simp [hpj, hj])]
    · rw [slSet_eq_noop hd hp]
      by_cases hj : j = i
      · subst hj
        rw [if_pos rfl, hd]
        unfold slGet
        rw [Option.not_isSome_iff_eq_none.mp hp]
      · rw [if_neg hj]
  · by_cases hp : (s.elements.find? (fun p => p.1 == i)).isSome
    · rw [slSet_eq_replace hd hp]
      unfold slGet
      by_cases hj : j = i
      · subst hj
        rw [if_pos rfl]
        show (match (s.elements.map fun p => if p.1 == j then (j, v) else p).find?
            (fun p => p.1 == j) with
          | some p => p.2
          | Option.none => s.default) = v
        rw [find?_map_replace_self s.elements j v hp]
      · rw [if_neg hj]
        show (match (s.elements.map fun p => if p.1 == i then (i, v) else p).find?
            (fun p => p.1 == j) with
          | some p => p.2
          | Option.none => s.default) = _
        rw [find?_map_replace_ne s.elements i j v hj]
    · rw [slSet_eq_insert hd hp]
      unfold slGet
      by_cases hj : j = i
      · subst hj
        rw [if_pos rfl]
        show (match (s.elements ++ [(j, v)]).find? (fun p => p.1 == j) with
          | some p => p.2
          | Option.none => s.default) = v
        rw [List.find?_append, Option.not_isSome_iff_eq_none.mp hp]
        simp
      · rw [if_neg hj]
        show (match (s.elements ++ [(i, v)]).find? (fun p => p.1 == j) with
          | some p => p.2
          | Option.none => s.default) = _
        rw [List.find?_append]
        have h1 : ([(i, v)].find? (fun p => p.1 == j)) = Option.none := by
          simp [Ne.symm hj]
        rw [h1]
        cases s.elements.find? (fun p => p.1 == j) <;> rfl

theorem slGet_wipe {V : Type} (s : SparseList V) (b t k : Int) :
    slGet (wipe_interval s b t) k =
      (if wipedOut b t k then s.default else slGet s k) := by
  unfold wipe_interval slGet
  by_cases hw : wipedOut b t k
  · rw [if_pos hw]
    have hnone : (s.elements.filter (fun p => !wipedOut b t p.1)).find?
        (fun p => p.1 == k) = Option.none := by
      rw [List.find?_eq_none]
      intro p hp2 hpk
      have h2 := (List.mem_filter.mp hp2).2
      simp only [beq_iff_eq] at hpk
      rw [hpk] at h2
      simp [hw] at h2
    rw [hnone]
  · rw [if_neg hw]
    rw [find?_filter_imp _ _ _
      (fun p hpk => by simp only [beq_iff_eq] at hpk; simp [hpk, hw])]

/-- C6: `wipe_interval` removes exactly the keys of the half-open
interval `[bottom, top)` when `bottom ≤ top`, else exactly the keys
outside `[top, bottom)`; point set / get / wipe preserve the
representation invariant from any valid state; reads behave like a
dense reference list (point update, interval wipe, default
elsewhere); and the length is last key + 1, or 0 when empty. -/
theorem SparseList_wipe_and_invariant :
    (∀ (V : Type) (s : SparseList V) (b t k : Int),
      (b ≤ t → (k ∈ (wipe_interval s b t).keys ↔
        k ∈ s.keys ∧ ¬(b ≤ k ∧ k < t))) ∧
      (t < b → (k ∈ (wipe_interval s b t).keys ↔
        k ∈ s.keys ∧ (t ≤ k ∧ k < b)))) ∧
    (∀ (V : Type) [inst : DecidableEq V] (s : SparseList V) (b t k : Int),
      (b ≤ t → slGet (wipe_interval s b t) k =
        (if b ≤ k ∧ k < t then s.default else slGet s k)) ∧
      (t < b → slGet (wipe_interval s b t) k =
        (if t ≤ k ∧ k < b then slGet s k else s.default))) ∧
    (∀ (V : Type) [inst : DecidableEq V] (s : SparseList V)
        (ops : List (SLOp V)), SLWf s → SLWf (applyOps s ops)) ∧
    (∀ (V : Type) [inst : DecidableEq V] (s : SparseList V) (i j : Int)
        (v : V), slGet (slSet s i v) j = if j = i then v else slGet s j) ∧
    (∀ (V : Type) (s : SparseList V), SLWf s →
      (s.keys = [] → slLen s = 0) ∧
      (s.keys ≠ [] → ∃ m ∈ s.keys, slLen s = m + 1 ∧ ∀ k ∈ s.keys, k ≤ m)) := by
  refine ⟨?_, ?_, ?_, ?_, ?_⟩
  · intro V s b t k
    constructor
    · intro hbt
      unfold wipe_interval
      simp only [List.mem_filter, Bool.not_eq_true]
      unfold wipedOut
      rw [if_neg (not_lt.mpr hbt)]
      constructor
      · intro ⟨hk, hcond⟩
        refine ⟨hk, ?_⟩
        intro ⟨h1, h2⟩
        simp [h1, h2] at hcond
      · intro ⟨hk, hcond⟩
        refine ⟨hk, ?_⟩
        by_cases h1 : b ≤ k <;> by_cases h2 : k < t <;>
          simp [h1, h2] <;> exact hcond ⟨h1, h2⟩
    · intro htb
      unfold wipe_interval
      simp only [List.mem_filter, Bool.not_eq_true]
      unfold wipedOut
      rw [if_pos htb]
      constructor
      · intro ⟨hk, hcond⟩
        refine ⟨hk, ?_⟩
        by_cases h1 : t ≤ k <;> by_cases h2 : k < b <;>
          simp [h1, h2] at hcond ⊢
      · intro ⟨hk, ⟨h1, h2⟩⟩
        refine ⟨hk, ?_⟩
        simp [h1, h2]
  · intro V inst s b t k
    constructor
    · intro hbt
      rw [slGet_wipe]
      unfold wipedOut
      rw [if_neg (not_lt.mpr hbt)]
      by_cases h1 : b ≤ k <;> by_cases h2 : k < t <;> simp [h1, h2]
    · intro htb
      rw [slGet_wipe]
      unfold wipedOut
      rw [if_pos htb]
      by_cases h1 : t ≤ k <;> by_cases h2 : k < b <;> simp [h1, h2]
  · intro V inst s ops hwf
    induction ops generalizing s with
    | nil => exact hwf
    | cons op rest ih =>
        have hstep : SLWf (applyOp s op) := by
          cases op with
          | set i v => exact slSet_wf s i v hwf
          | wipe b t => exact wipe_wf s b t hwf
        exact ih _ hstep
  · intro V inst s i j v
    exact slGet_slSet s i j v
  · intro V s hwf
    obtain ⟨hsort, _, _, _⟩ := hwf
    constructor
    · intro hemp
      unfold slLen
      rw [hemp]
      rfl
    · intro hne
      refine ⟨s.keys.getLast hne, List.getLast_mem hne, ?_, ?_⟩
      · unfold slLen
        rw [List.getLast?_eq_getLast s.keys hne]
      · intro k hk
        rcases pairwise_rel_getLast s.keys hne hsort k hk with rfl | hlt
        · exact le_refl _
        · exact le_of_lt hlt

/-- C6 witness: the combined statement applied at a concrete valid
state `{2 ↦ a}` with a set, a get and a wipe. -/
theorem SparseList_wipe_and_invariant_witness :
    SLWf (⟨[2], [(2, some 5)], Option.none⟩ : SparseList (Option Int)) ∧
    SLWf (applyOps (⟨[2], [(2, some 5)], Option.none⟩ : SparseList (Option Int))
      [SLOp.set 4 (some 7), SLOp.wipe 0 3]) ∧
    slGet (slSet (⟨[2], [(2, some 5)], Option.none⟩ : SparseList (Option Int))
      4 (some 7)) 2 = (if (2 : Int) = 4 then some 7 else some 5) := by
  have hwf : SLWf (⟨[2], [(2, some 5)], Option.none⟩ : SparseList (Option Int)) := by
    refine ⟨by decide, by decide, ?_, by decide⟩
    intro k
    simp
  refine ⟨hwf, SparseList_wipe_and_invariant.2.2.1 (Option Int) _ _ hwf, ?_⟩
  rw [SparseList_wipe_and_invariant.2.2.2.1 (Option Int) _ 4 2 (some 7)]
  decide

/-! ### C4: rebuild never orphans nodes with a resolvable parent -/

theorem heapGet_heapSet (h : Heap) (m : Nat) (f : FileObj) (k : Nat) :
    heapGet (heapSet h m f) k =
      if m = k ∧ m < h.length then f else heapGet h k := by
  unfold heapGet heapSet
  rw [List.getD_eq_getElem?_getD, List.getD_eq_getElem?_getD,
    List.getElem?_set]
  by_cases hmk : m = k
  · subst hmk
    by_cases hlen : m < h.length
    · simp [hlen]
    · have hnone : h[m]? = Option.none :=
        List.getElem?_eq_none (le_of_not_lt hlen)
      simp [hlen, hnone]
  · simp [hmk]

theorem heapGet_append (h : Heap) (l : Heap) (k : Nat) (hk : k < h.length) :
    heapGet (h ++ l) k = heapGet h k := by
  unfold heapGet
  rw [List.getD_eq_getElem?_getD, List.getD_eq_getElem?_getD,
    List.getElem?_append_left hk]

theorem heapSet_length (h : Heap) (m : Nat) (f : FileObj) :
    (heapSet h m f).length = h.length := List.length_set h m f

theorem add_child_length (h : Heap) (pid cid : Nat) :
    (add_child h pid cid).length = h.length := by
  unfold add_child
  by_cases hc : cid ∈ (heapGet h pid).children
  · simp [hc]
  · simp only [hc, if_false]
    rw [heapSet_length, heapSet_length]

/-- `add_child` writes names, children and child-name sets but never a
parent link or an index. -/
theorem add_child_preserves (h : Heap) (pid cid k : Nat) :
    (heapGet (add_child h pid cid) k).parent = (heapGet h k).parent ∧
    (heapGet (add_child h pid cid) k).index = (heapGet h k).index := by
  unfold add_child
  by_cases hc : cid ∈ (heapGet h pid).children
  · simp [hc]
  · simp only [hc, if_false]
    refine ⟨?_, ?_⟩
    all_goals
      rw [heapGet_heapSet, heapSet_length]
      by_cases hpk : pid = k ∧ pid < h.length
      · rw [if_pos hpk]
        obtain ⟨hpk1, hpk2⟩ := hpk
        subst hpk1
        dsimp only
        rw [heapGet_heapSet]
        by_cases hck : cid = pid ∧ cid < h.length
        · rw [if_pos hck]
          dsimp only
          rw [hck.1]
        · rw [if_neg hck]
      · rw [if_neg hpk]
        rw [heapGet_heapSet]
        by_cases hck : cid = k ∧ cid < h.length
        · rw [if_pos hck]
          dsimp only
          rw [hck.1]
        · rw [if_neg hck]

theorem find?_dec_map_replace_ne {K V : Type} [DecidableEq K]
    (l : List (K × V)) (i j : K) (v : V) (hj : j ≠ i) :
    (l.map (fun p => if p.1 = i then (i, v) else p)).find?
      (fun p => decide (p.1 = j)) = l.find? (fun p => decide (p.1 = j)) := by
  induction l with
  | nil => rfl
  | cons a l2 ih =>
      by_cases ha : a.1 = i
      · rw [List.map_cons, if_pos ha]
        rw [List.find?_cons_of_neg _ (by simp [Ne.symm hj]),
          List.find?_cons_of_neg _ (by simp [ha, Ne.symm hj])]
        exact ih
      · rw [List.map_cons, if_neg ha]
        by_cases haj : a.1 = j
        · rw [List.find?_cons_of_pos _ (by simp [haj]),
            List.find?_cons_of_pos _ (by simp [haj])]
        · rw [List.find?_cons_of_neg _ (by simp [haj]),
            List.find?_cons_of_neg _ (by simp [haj])]
          exact ih

theorem find?_dec_map_replace_self {K V : Type} [DecidableEq K]
    (l : List (K × V)) (i : K) (v : V)
    (hp : (l.find? (fun p => decide (p.1 = i))).isSome) :
    (l.map (fun p => if p.1 = i then (i, v) else p)).find?
      (fun p => decide (p.1 = i)) = some (i, v) := by
  induction l with
  | nil => simp at hp
  | cons a l2 ih =>
      by_cases ha : a.1 = i
      · rw [List.map_cons, if_pos ha]
        rw [List.find?_cons_of_pos _ (by simp)]
      · rw [List.map_cons, if_neg ha]
        rw [List.find?_cons_of_neg _ (by simp [ha])]
        rw [List.find?_cons_of_neg _ (by simp [ha])] at hp
        exact ih hp

theorem fdGet_fdSet (d : List (Idx × Nat)) (k : Idx) (v : Nat) (j : Idx) :
    fdGet (fdSet d k v) j = if j = k then some v else fdGet d j := by
  unfold fdGet fdSet
  by_cases hp : (d.find? (fun p => decide (p.1 = k))).isSome
  · rw [if_pos hp]
    by_cases hj : j = k
    · subst hj
      rw [if_pos rfl, find?_dec_map_replace_self d j v hp]
      rfl
    · rw [if_neg hj, find?_dec_map_replace_ne d k j v hj]
  · rw [if_neg hp]
    by_cases hj : j = k
    · subst hj
      rw [if_pos rfl, List.find?_append, Option.not_isSome_iff_eq_none.mp hp]
      simp
    · rw [if_neg hj, List.find?_append]
      have h1 : ([(k, v)].find? (fun p => decide (p.1 = j))) = Option.none := by
        simp [Ne.symm hj]
      rw [h1]
      cases d.find? (fun p => decide (p.1 = j)) <;> rfl

/-- The facts about one tracked node that `rebuildStep` preserves. -/
def NodeFacts (i p : Idx) (oid : Nat) (s : PState) : Prop :=
  fdGet s.part.files i = some oid ∧ oid < s.heap.length ∧
  (heapGet s.heap oid).index = i ∧ (heapGet s.heap oid).parent = some p

theorem rebuildStep_preserves (root_id i p : Idx) (oid : Nat)
    (hne : i ≠ root_id) :
    ∀ (s s' : PState) (j : Idx), NodeFacts i p oid s →
      rebuildStep root_id s j = some s' → NodeFacts i p oid s' := by
  intro s s' j hf hstep
  obtain ⟨hbind, hlt, hidx, hpar⟩ := hf
  unfold rebuildStep at hstep
  cases hfind : fdGet s.part.files j with
  | none => rw [hfind] at hstep; exact absurd hstep (by simp)
  | some nodeId =>
    rw [hfind] at hstep
    simp only at hstep
    have hnid : nodeId ≠ oid ∨ nodeId = oid := by tauto
    by_cases hroot : (heapGet s.heap nodeId).index = root_id
    · rw [if_pos hroot] at hstep
      have hno : nodeId ≠ oid := by
        intro hcontra
        rw [hcontra, hidx] at hroot
        exact hne hroot
      unfold set_root at hstep
      by_cases hdir : (heapGet s.heap nodeId).is_directory
      · rw [if_pos hdir] at hstep
        simp only [Option.bind_eq_bind, Option.some_bind, Option.pure_def,
          Option.some.injEq] at hstep
        subst hstep
        refine ⟨hbind, ?_, ?_, ?_⟩
        · rw [heapSet_length, heapSet_length]
          exact hlt
        · rw [heapGet_heapSet, heapSet_length,
            if_neg (fun hc => hno hc.1), heapGet_heapSet,
            if_neg (fun hc => hno hc.1)]
          exact hidx
        · rw [heapGet_heapSet, heapSet_length,
            if_neg (fun hc => hno hc.1), heapGet_heapSet,
            if_neg (fun hc => hno hc.1)]
          exact hpar
      · rw [if_neg hdir] at hstep
        exact absurd hstep (by simp)
    · rw [if_neg hroot] at hstep
      cases hpar2 : (heapGet s.heap nodeId).parent with
      | none =>
          rw [hpar2] at hstep
          simp only [Option.pure_def, Option.some.injEq] at hstep
          subst hstep
          have hno : nodeId ≠ oid := by
            intro hcontra
            rw [hcontra, hpar] at hpar2
            exact absurd hpar2 (by simp)
          refine ⟨hbind, ?_, ?_, ?_⟩
          · rw [add_child_length, heapSet_length]
            exact hlt
          · rw [(add_child_preserves _ _ _ _).2, heapGet_heapSet,
              if_neg (fun hc => hno hc.1)]
            exact hidx
          · rw [(add_child_preserves _ _ _ _).1, heapGet_heapSet,
              if_neg (fun hc => hno hc.1)]
            exact hpar
      | some parent_id =>
          rw [hpar2] at hstep
          dsimp only at hstep
          cases hvalid : fdGet s.part.files parent_id with
          | some parentId =>
              rw [hvalid] at hstep
              simp only [Option.pure_def, Option.some.injEq] at hstep
              subst hstep
              exact ⟨hbind, by rw [add_child_length]; exact hlt,
                by rw [(add_child_preserves _ _ _ _).2]; exact hidx,
                by rw [(add_child_preserves _ _ _ _).1]; exact hpar⟩
          | none =>
              rw [hvalid] at hstep
              simp only [Option.pure_def, Option.some.injEq] at hstep
              subst hstep
              have hpi : i ≠ parent_id := by
                intro hcontra
                rw [← hcontra, hbind] at hvalid
                exact absurd hvalid (by simp)
              refine ⟨?_, ?_, ?_, ?_⟩
              · show fdGet (fdSet s.part.files parent_id _) i = some oid
                rw [fdGet_fdSet, if_neg hpi]
                exact hbind
              · rw [add_child_length, add_child_length]
                simpa [halloc] using Nat.lt_succ_of_lt hlt
              · rw [(add_child_preserves _ _ _ _).2,
                  (add_child_preserves _ _ _ _).2]
                show (heapGet (s.heap ++ [_]) oid).index = i
                rw [heapGet_append _ _ _ hlt]
                exact hidx
              · rw [(add_child_preserves _ _ _ _).1,
                  (add_child_preserves _ _ _ _).1]
                show (heapGet (s.heap ++ [_]) oid).parent = some p
                rw [heapGet_append _ _ _ hlt]
                exact hpar

theorem rebuildFold_preserves (root_id i p : Idx) (oid : Nat)
    (hne : i ≠ root_id) :
    ∀ (keys : List Idx) (s s' : PState), NodeFacts i p oid s →
      keys.foldlM (rebuildStep root_id) s = some s' →
      NodeFacts i p oid s' := by
  intro keys
  induction keys with
  | nil =>
      intro s s' hf hfold
      simp only [List.foldlM_nil, Option.pure_def, Option.some.injEq] at hfold
      exact hfold ▸ hf
  | cons j t ih =>
      intro s s' hf hfold
      rw [List.foldlM_cons] at hfold
      cases hstep : rebuildStep root_id s j with
      | none => rw [hstep] at hfold; exact absurd hfold (by simp)
      | some s1 =>
          rw [hstep] at hfold
          exact ih s1 s' (rebuildStep_preserves root_id i p oid hne s s1 j
            hf hstep) hfold

/-- C4 amended: `rebuild` performs no cycle detection.  Every node
whose index differs from `root_id` and whose parent link is non-null
keeps its `files` binding, its index and its parent link across
`rebuild` — even when the parent links form a cycle — so such nodes
are never orphaned into `lost`, and a root-ward walk that revisits a
node keeps revisiting it. -/
theorem rebuild_preserves_nonnull_parents (s : PState) (i p : Idx)
    (oid : Nat)
    (hne : i ≠ s.part.root_id)
    (hbind : fdGet s.part.files i = some oid)
    (hlt : oid < s.heap.length)
    (hidx : (heapGet s.heap oid).index = i)
    (hpar : (heapGet s.heap oid).parent = some p) :
    ∀ s', rebuild s = some s' →
      fdGet s'.part.files i = some oid ∧
      (heapGet s'.heap oid).parent = some p ∧
      (heapGet s'.heap oid).index = i := by
  intro s' hreb
  unfold rebuild at hreb
  set s1 := if (fdGet s.part.files s.part.root_id).isNone then
      let p2 := halloc s.heap
        (mkFile s.part.root_id rootName (some 0) true false true)
      ({ heap := p2.1,
         part := { s.part with
           files := fdSet s.part.files s.part.root_id p2.2 } } : PState)
    else s with hs1
  have hf1 : NodeFacts i p oid s1 := by
    rw [hs1]
    split
    · refine ⟨?_, ?_, ?_, ?_⟩
      · show fdGet (fdSet s.part.files s.part.root_id _) i = some oid
        rw [fdGet_fdSet, if_neg hne]
        exact hbind
      · simpa [halloc] using Nat.lt_succ_of_lt hlt
      · show (heapGet (s.heap ++ [_]) oid).index = i
        rw [heapGet_append _ _ _ hlt]
        exact hidx
      · show (heapGet (s.heap ++ [_]) oid).parent = some p
        rw [heapGet_append _ _ _ hlt]
        exact hpar
    · exact ⟨hbind, hlt, hidx, hpar⟩
  have := rebuildFold_preserves s.part.root_id i p oid hne
    (s1.part.files.map (fun q => q.1)) s1 s' hf1 hreb
  exact ⟨this.1, this.2.2.2, this.2.2.1⟩

/-- C4 witness: the preservation theorem applied to the two-cycle
partition at node 1. -/
theorem rebuild_preserves_nonnull_parents_witness :
    (Sum.inl 1 ≠ cyclePart.part.root_id ∧
     fdGet cyclePart.part.files (Sum.inl 1) = some 1 ∧
     1 < cyclePart.heap.length ∧
     (heapGet cyclePart.heap 1).index = Sum.inl 1 ∧
     (heapGet cyclePart.heap 1).parent = some (Sum.inl 2)) ∧
    (∀ s', rebuild cyclePart = some s' →
      fdGet s'.part.files (Sum.inl 1) = some 1 ∧
      (heapGet s'.heap 1).parent = some (Sum.inl 2) ∧
      (heapGet s'.heap 1).index = Sum.inl 1) :=
  ⟨⟨by decide, by decide, by decide, by decide, by decide⟩,
   rebuild_preserves_nonnull_parents cyclePart (Sum.inl 1) (Sum.inl 2) 1
     (by decide) (by decide) (by decide) (by decide) (by decide)⟩

/-! ### C10: `Partition.get` and the `-1` sentinel -/

/-- One `rebuild` step never books the `-1` key, keeps every existing
binding, can only grow the heap, and does not touch the parent link of
any object other than the processed node. -/
theorem rebuildStep_no_neg1 (root_id : Idx) (s s' : PState) (j : Idx)
    (hstep : rebuildStep root_id s j = some s')
    (hkey : fdGet s.part.files (Sum.inl (-1)) = Option.none)
    (hnodej : ∀ nid, fdGet s.part.files j = some nid →
      (heapGet s.heap nid).parent ≠ some (Sum.inl (-1))) :
    fdGet s'.part.files (Sum.inl (-1)) = Option.none ∧
    (∀ k n, fdGet s.part.files k = some n → fdGet s'.part.files k = some n) ∧
    s.heap.length ≤ s'.heap.length ∧
    (∀ m, m < s.heap.length →
      (∀ n, fdGet s.part.files j = some n → m ≠ n) →
      (heapGet s'.heap m).parent = (heapGet s.heap m).parent) := by
  unfold rebuildStep at hstep
  cases hfind : fdGet s.part.files j with
  | none => rw [hfind] at hstep; exact absurd hstep (by simp)
  | some nodeId =>
    rw [hfind] at hstep
    simp only at hstep
    by_cases hroot : (heapGet s.heap nodeId).index = root_id
    · rw [if_pos hroot] at hstep
      unfold set_root at hstep
      by_cases hdir : (heapGet s.heap nodeId).is_directory
      · rw [if_pos hdir] at hstep
        simp only [Option.bind_eq_bind, Option.some_bind, Option.pure_def,
          Option.some.injEq] at hstep
        subst hstep
        refine ⟨hkey, fun k n hkn => hkn, ?_, ?_⟩
        · rw [heapSet_length, heapSet_length]
        · intro m _ hmn
          have hm : m ≠ nodeId := hmn nodeId rfl
          rw [heapGet_heapSet, heapSet_length,
            if_neg (fun hc => hm hc.1.symm), heapGet_heapSet,
            if_neg (fun hc => hm hc.1.symm)]
      · rw [if_neg hdir] at hstep
        exact absurd hstep (by simp)
    · rw [if_neg hroot] at hstep
      cases hpar2 : (heapGet s.heap nodeId).parent with
      | none =>
          rw [hpar2] at hstep
          simp only [Option.pure_def, Option.some.injEq] at hstep
          subst hstep
          refine ⟨hkey, fun k n hkn => hkn, ?_, ?_⟩
          · rw [add_child_length, heapSet_length]
          · intro m _ hmn
            have hm : m ≠ nodeId := hmn nodeId rfl
            rw [(add_child_preserves _ _ _ _).1, heapGet_heapSet,
              if_neg (fun hc => hm hc.1.symm)]
      | some parent_id =>
          rw [hpar2] at hstep
          dsimp only at hstep
          cases hvalid : fdGet s.part.files parent_id with
          | some parentId =>
              rw [hvalid] at hstep
              simp only [Option.pure_def, Option.some.injEq] at hstep
              subst hstep
              exact ⟨hkey, fun k n hkn => hkn,
                by rw [add_child_length],
                fun m _ _ => (add_child_preserves _ _ _ _).1⟩
          | none =>
              rw [hvalid] at hstep
              simp only [Option.pure_def, Option.some.injEq] at hstep
              subst hstep
              have hpne : parent_id ≠ Sum.inl (-1) := by
                intro hcontra
                exact hnodej nodeId hfind (hcontra ▸ hpar2)
              refine ⟨?_, ?_, ?_, ?_⟩
              · show fdGet (fdSet s.part.files parent_id _) (Sum.inl (-1)) =
                  Option.none
                rw [fdGet_fdSet, if_neg (fun hc => hpne hc.symm)]
                exact hkey
              · intro k n hkn
                show fdGet (fdSet s.part.files parent_id _) k = some n
                rw [fdGet_fdSet]
                by_cases hkp : k = parent_id
                · rw [hkp, hvalid] at hkn
                  exact absurd hkn (by simp)
                · rw [if_neg hkp]
                  exact hkn
              · rw [add_child_length, add_child_length]
                simp [halloc]
              · intro m hm _
                rw [(add_child_preserves _ _ _ _).1,
                  (add_child_preserves _ _ _ _).1]
                show (heapGet (s.heap ++ [_]) m).parent = _
                rw [heapGet_append _ _ _ hm]

/-- The fold of `rebuild` steps never books the `-1` key, provided no
pending node has the `-1` parent sentinel and no two pending keys are
bound to the same object. -/
theorem rebuildFold_no_neg1 (root_id : Idx) :
    ∀ (ks : List Idx) (s s' : PState),
      fdGet s.part.files (Sum.inl (-1)) = Option.none →
      (∀ j ∈ ks, ∃ nid, fdGet s.part.files j = some nid ∧
        nid < s.heap.length ∧
        (heapGet s.heap nid).parent ≠ some (Sum.inl (-1))) →
      ks.Pairwise (fun j1 j2 => ∀ n1 n2,
        fdGet s.part.files j1 = some n1 →
        fdGet s.part.files j2 = some n2 → n1 ≠ n2) →
      ks.foldlM (rebuildStep root_id) s = some s' →
      fdGet s'.part.files (Sum.inl (-1)) = Option.none := by
  intro ks
  induction ks with
  | nil =>
      intro s s' hkey _ _ hfold
      simp only [List.foldlM_nil, Option.pure_def, Option.some.injEq] at hfold
      exact hfold ▸ hkey
  | cons j tl ih =>
      intro s s' hkey hnodes hdist hfold
      rw [List.foldlM_cons] at hfold
      cases hstep : rebuildStep root_id s j with
      | none => rw [hstep] at hfold; exact absurd hfold (by simp)
      | some s1 =>
          rw [hstep] at hfold
          obtain ⟨nidj, hjbind, hjlt, hjpar⟩ :=
            hnodes j (List.mem_cons_self j tl)
          obtain ⟨hkey1, hstable, hgrow, hpars⟩ :=
            rebuildStep_no_neg1 root_id s s1 j hstep hkey
              (fun nid hnid => by
                rw [hjbind] at hnid
                cases hnid
                exact hjpar)
          obtain ⟨hdj, hdtl⟩ := List.pairwise_cons.mp hdist
          refine ih s1 s' hkey1 ?_ ?_ hfold
          · intro k hk
            obtain ⟨nid, hbind, hlt, hpar⟩ := hnodes k (List.mem_cons_of_mem j hk)
            refine ⟨nid, hstable k nid hbind, lt_of_lt_of_le hlt hgrow, ?_⟩
            have hne2 : nid ≠ nidj := Ne.symm (hdj k hk nidj nid hjbind hbind)
            have hpp := hpars nid hlt (fun n hn => by
              rw [hjbind] at hn
              cases hn
              exact hne2)
            rw [hpp]
            exact hpar
          · refine List.Pairwise.imp_of_mem ?_ hdtl
            intro k1 k2 hk1 hk2 hd n1 n2 hb1 hb2
            obtain ⟨m1, hm1, _, _⟩ := hnodes k1 (List.mem_cons_of_mem j hk1)
            obtain ⟨m2, hm2, _, _⟩ := hnodes k2 (List.mem_cons_of_mem j hk2)
            rw [hstable k1 m1 hm1] at hb1
            rw [hstable k2 m2 hm2] at hb2
            injection hb1 with he1
            injection hb2 with he2
            rw [← he1, ← he2]
            exact hd m1 m2 hm1 hm2

theorem fdGet_isSome_of_mem (d : List (Idx × Nat)) (j : Idx)
    (hj : j ∈ d.map (fun p => p.1)) : ∃ n, fdGet d j = some n := by
  obtain ⟨p, hp, hpj⟩ := List.mem_map.mp hj
  unfold fdGet
  cases hfind : d.find? (fun q => decide (q.1 = j)) with
  | none =>
      exact absurd (List.find?_eq_none.mp hfind p hp (by simp [hpj]))
        (by simp)
  | some q => exact ⟨q.2, rfl⟩

theorem fdGet_mem (d : List (Idx × Nat)) (j : Idx) (n : Nat)
    (h : fdGet d j = some n) : (j, n) ∈ d := by
  unfold fdGet at h
  cases hfind : d.find? (fun q => decide (q.1 = j)) with
  | none => rw [hfind] at h; exact absurd h (by simp)
  | some q =>
      rw [hfind] at h
      have hq := List.find?_some hfind
      have hmem := List.mem_of_find?_eq_some hfind
      simp only [decide_eq_true_eq] at hq
      simp only [Option.map_some', Option.some.injEq] at h
      have : q = (j, n) := by
        obtain ⟨q1, q2⟩ := q
        simp only at hq h
        rw [hq, h]
      exact this ▸ hmem

theorem heapGet_append_self (h : Heap) (f : FileObj) :
    heapGet (h ++ [f]) h.length = f := by
  unfold heapGet
  rw [List.getD_eq_getElem?_getD, List.getElem?_append]
  simp

/-- C10: `Partition.get` is total: it returns the `files` entry when
the index is a key; otherwise the `lost` directory when the index
equals the lost index (`-1`); otherwise the default, which is exactly
the case where `__getitem__` raises `KeyError`.  Moreover `rebuild`
never books `-1` as a `files` key when run on a scan-produced
partition state (no file parented to `-1`, distinct keys and objects,
root id not `-1`). -/
theorem partition_get_total_and_lost_fallback :
    (∀ (s : PState) (i : Idx) (d : Option Nat) (o : Nat),
      fdGet s.part.files i = some o →
      pgetitem s i = some o ∧ pget s i d = some o) ∧
    (∀ (s : PState) (i : Idx) (d : Option Nat),
      fdGet s.part.files i = Option.none →
      i = (heapGet s.heap s.part.lost).index →
      pgetitem s i = some s.part.lost ∧ pget s i d = some s.part.lost) ∧
    (∀ (s : PState) (i : Idx) (d : Option Nat),
      fdGet s.part.files i = Option.none →
      i ≠ (heapGet s.heap s.part.lost).index →
      pgetitem s i = Option.none ∧ pget s i d = d) ∧
    (∀ (s s' : PState),
      s.part.root_id ≠ Sum.inl (-1) →
      fdGet s.part.files (Sum.inl (-1)) = Option.none →
      (∀ pr ∈ s.part.files, pr.2 < s.heap.length ∧
        (heapGet s.heap pr.2).parent ≠ some (Sum.inl (-1))) →
      (s.part.files.map (fun pr => pr.1)).Nodup →
      (s.part.files.map (fun pr => pr.2)).Nodup →
      rebuild s = some s' →
      fdGet s'.part.files (Sum.inl (-1)) = Option.none) := by
  refine ⟨?_, ?_, ?_, ?_⟩
  · intro s i d o ho
    have h1 : pgetitem s i = some o := by unfold pgetitem; rw [ho]
    refine ⟨h1, ?_⟩
    unfold pget
    rw [h1]
  · intro s i d hnone hlost
    have h1 : pgetitem s i = some s.part.lost := by
      unfold pgetitem
      rw [hnone]
      exact if_pos hlost
    refine ⟨h1, ?_⟩
    unfold pget
    rw [h1]
  · intro s i d hnone hlost
    have h1 : pgetitem s i = Option.none := by
      unfold pgetitem
      rw [hnone]
      exact if_neg hlost
    refine ⟨h1, ?_⟩
    unfold pget
    rw [h1]
  · intro s s' hroot hkey hnodes hkeysnd hvalsnd hreb
    unfold rebuild at hreb
    set s1 := if (fdGet s.part.files s.part.root_id).isNone then
        let p2 := halloc s.heap
          (mkFile s.part.root_id rootName (some 0) true false true)
        ({ heap := p2.1,
           part := { s.part with
             files := fdSet s.part.files s.part.root_id p2.2 } } : PState)
      else s with hs1
    have hfiles1 : s1.part.files = s.part.files ∨
        (s1.part.files = s.part.files ++ [(s.part.root_id, s.heap.length)] ∧
         s1.heap = s.heap ++ [mkFile s.part.root_id rootName (some 0)
           true false true] ∧
         fdGet s.part.files s.part.root_id = Option.none) := by
      rw [hs1]
      by_cases hmiss : (fdGet s.part.files s.part.root_id).isNone
      · right
        rw [if_pos hmiss]
        refine ⟨?_, rfl, Option.isNone_iff_eq_none.mp hmiss⟩
        show fdSet s.part.files s.part.root_id s.heap.length = _
        unfold fdSet
        rw [if_neg (by
          rw [Option.isNone_iff_eq_none] at hmiss
          unfold fdGet at hmiss
          intro hcontra
          obtain ⟨q, hq⟩ := Option.isSome_iff_exists.mp hcontra
          rw [hq] at hmiss
          exact absurd hmiss (by simp))]
      · left
        rw [if_neg hmiss]
    have hheap1 : s1.heap = s.heap ∨ s1.heap = s.heap ++
        [mkFile s.part.root_id rootName (some 0) true false true] := by
      rw [hs1]
      by_cases hmiss : (fdGet s.part.files s.part.root_id).isNone
      · right
        rw [if_pos hmiss]
        rfl
      · left
        rw [if_neg hmiss]
    -- facts about the state the fold starts from
    have hkey1 : fdGet s1.part.files (Sum.inl (-1)) = Option.none := by
      rcases hfiles1 with heq | ⟨heq, _, _⟩
      · rw [heq]; exact hkey
      · rw [heq]
        show fdGet (s.part.files ++ [(s.part.root_id, s.heap.length)])
          (Sum.inl (-1)) = Option.none
        unfold fdGet at hkey ⊢
        rw [List.find?_append]
        cases hfind : s.part.files.find?
            (fun q => decide (q.1 = Sum.inl (-1))) with
        | some q => rw [hfind] at hkey; exact absurd hkey (by simp)
        | none =>
            simp only [Option.none_or]
            rw [List.find?_cons_of_neg _ (by simpa using hroot)]
            rfl
    have hpairmem : ∀ pr ∈ s1.part.files, pr.2 < s1.heap.length ∧
        (heapGet s1.heap pr.2).parent ≠ some (Sum.inl (-1)) := by
      intro pr hpr
      rcases hfiles1 with heq | ⟨heq, hh, _⟩
      · rw [heq] at hpr
        obtain ⟨hlt, hpar⟩ := hnodes pr hpr
        rcases hheap1 with hh | hh
        · rw [hh]; exact ⟨hlt, hpar⟩
        · rw [hh]
          refine ⟨lt_of_lt_of_le hlt (by simp), ?_⟩
          rw [heapGet_append _ _ _ hlt]
          exact hpar
      · rw [heq] at hpr
        rcases List.mem_append.mp hpr with hpr1 | hpr2
        · obtain ⟨hlt, hpar⟩ := hnodes pr hpr1
          rw [hh]
          refine ⟨lt_of_lt_of_le hlt (by simp), ?_⟩
          rw [heapGet_append _ _ _ hlt]
          exact hpar
        · simp only [List.mem_singleton] at hpr2
          subst hpr2
          rw [hh]
          refine ⟨by simp, ?_⟩
          rw [heapGet_append_self]
          simp [mkFile]
    have hkeys1 : (s1.part.files.map (fun pr => pr.1)).Nodup := by
      rcases hfiles1 with heq | ⟨heq, _, hmiss⟩
      · rw [heq]; exact hkeysnd
      · rw [heq, List.map_append]
        refine List.nodup_append.mpr ⟨hkeysnd, List.nodup_singleton _, ?_⟩
        simp only [List.disjoint_right, List.mem_singleton]
        intro a ha
        simp only [List.map_cons, List.map_nil, List.mem_cons,
          List.not_mem_nil, or_false] at ha
        subst ha
        intro hcontra
        obtain ⟨n, hn⟩ := fdGet_isSome_of_mem _ _ hcontra
        rw [hn] at hmiss
        exact absurd hmiss (by simp)
    have hvals1 : (s1.part.files.map (fun pr => pr.2)).Nodup := by
      rcases hfiles1 with heq | ⟨heq, _, _⟩
      · rw [heq]; exact hvalsnd
      · rw [heq, List.map_append]
        refine List.nodup_append.mpr ⟨hvalsnd, List.nodup_singleton _, ?_⟩
        simp only [List.disjoint_right, List.mem_singleton]
        intro a ha
        simp only [List.map_cons, List.map_nil, List.mem_cons,
          List.not_mem_nil, or_false] at ha
        subst ha
        intro hcontra
        obtain ⟨pr, hpr, hpr2⟩ := List.mem_map.mp hcontra
        have := (hnodes pr hpr).1
        omega
    refine rebuildFold_no_neg1 s.part.root_id
      (s1.part.files.map (fun q => q.1)) s1 s' hkey1 ?_ ?_ hreb
    · intro j hj
      obtain ⟨nid, hnid⟩ := fdGet_isSome_of_mem _ _ hj
      have hmem2 := fdGet_mem _ _ _ hnid
      obtain ⟨hlt, hpar⟩ := hpairmem _ hmem2
      exact ⟨nid, hnid, hlt, hpar⟩
    · refine List.Pairwise.imp_of_mem ?_ hkeys1
      intro j1 j2 _ _ hne n1 n2 h1 h2
      have hm1 := fdGet_mem _ _ _ h1
      have hm2 := fdGet_mem _ _ _ h2
      intro hcontra
      subst hcontra
      have := List.inj_on_of_nodup_map hvals1 hm1 hm2 rfl
      simp only [Prod.mk.injEq] at this
      exact hne this.1

theorem partition_get_total_and_lost_fallback_witness :
    pget orphanPart (Sum.inl 7) Option.none = some 1 ∧
    pgetitem orphanPart (Sum.inl (-1)) = some 0 ∧
    pget orphanPart (Sum.inl 3) Option.none = Option.none ∧
    (rebuild orphanPart).map
      (fun s1 => fdGet s1.part.files (Sum.inl (-1))) = some Option.none := by
  have h := partition_get_total_and_lost_fallback
  refine ⟨(h.1 orphanPart (Sum.inl 7) Option.none 1 (by decide)).2,
          (h.2.1 orphanPart (Sum.inl (-1)) Option.none (by decide) (by decide)).1,
          (h.2.2.1 orphanPart (Sum.inl 3) Option.none (by decide) (by decide)).2, ?_⟩
  cases hreb : rebuild orphanPart with
  | none =>
      have hsome : (rebuild orphanPart).isSome = true := by rfl
      rw [hreb] at hsome
      exact absurd hsome (by simp)
  | some s1 =>
      have hnone := h.2.2.2 orphanPart s1 (by decide) (by decide)
        (by
          intro pr hpr
          have hone : pr = (Sum.inl 7, 1) := by
            have h0 : orphanPart.part.files = [(Sum.inl 7, 1)] := by decide
            rw [h0] at hpr
            simpa using hpr
          have hp : (heapGet orphanPart.heap pr.2).parent = Option.none := by
            rw [hone]
            rfl
          refine ⟨by rw [hone]; decide, ?_⟩
          rw [hp]
          intro hcon
          exact Option.noConfusion hcon)
        (by decide) (by decide) hreb
      rw [Option.map_some', hnone]

/-! ### C3: exact embeddings and `approximate_matching`

When a pattern with pairwise-distinct populated values occurs verbatim
in the text at offset `o`, every populated text key `k + o` looks up
the singleton offset list `[msize - k - 1]`, so all increments land in
the one counter slot `(o + msize - 1) % msize`; the interval wipes
between consecutive keys never touch that slot.  The lemmas below
follow the loop step by step. -/

theorem emod_in_window (m x : Int) (h0 : 0 ≤ x) (h2 : x < 2 * m) :
    x.emod m = if x < m then x else x - m := by
  by_cases h : x < m
  · rw [if_pos h]
    exact Int.emod_eq_of_lt h0 h
  · rw [if_neg h]
    exact (Int.emod_sub_cancel x m).symm.trans
      (Int.emod_eq_of_lt (by omega) (by omega))

theorem emod_add_emod_right (m x o : Int) :
    (x + o).emod m = (x + o.emod m).emod m := by
  show (x + o) % m = (x + o % m) % m
  rw [Int.add_emod x o m, Int.add_emod x (o % m) m,
    Int.emod_emod_of_dvd o dvd_rfl]

theorem wipedOut_eq_false_iff (bottom top k : Int) :
    wipedOut bottom top k = false ↔
      (if bottom > top then top ≤ k ∧ k < bottom
       else ¬(bottom ≤ k ∧ k < top)) := by
  unfold wipedOut
  split_ifs with h <;> simp

/-- The slot `(o - 1) % m` where an exact occurrence at offset `o`
accumulates its score is never wiped between two in-range keys `a <
b`. -/
theorem wipedOut_slot_false (m o a b : Int) (ha0 : 0 ≤ a) (hab : a < b)
    (hbm : b < m) :
    wipedOut ((a + o).emod m) ((b + o).emod m) ((o - 1).emod m) = false := by
  have hm : 0 < m := by omega
  have hr0 : 0 ≤ o.emod m := Int.emod_nonneg o (by omega)
  have hrm : o.emod m < m := Int.emod_lt_of_pos o hm
  have hA : (a + o).emod m =
      if a + o.emod m < m then a + o.emod m else a + o.emod m - m := by
    rw [emod_add_emod_right]
    exact emod_in_window m _ (by omega) (by omega)
  have hB : (b + o).emod m =
      if b + o.emod m < m then b + o.emod m else b + o.emod m - m := by
    rw [emod_add_emod_right]
    exact emod_in_window m _ (by omega) (by omega)
  have hS : (o - 1).emod m = if o.emod m = 0 then m - 1 else o.emod m - 1 := by
    have h1 : (o - 1).emod m = (o.emod m - 1).emod m := by
      show (o - 1) % m = (o % m - 1) % m
      rw [Int.sub_emod o 1 m, Int.sub_emod (o % m) 1 m,
        Int.emod_emod_of_dvd o dvd_rfl]
    rw [h1]
    by_cases hz : o.emod m = 0
    · rw [if_pos hz, hz]
      rw [show (0 : Int) - 1 = m - 1 - m by ring]
      exact (Int.emod_sub_cancel (m - 1) m).trans
        (Int.emod_eq_of_lt (by omega) (by omega))
    · rw [if_neg hz]
      exact Int.emod_eq_of_lt (by omega) (by omega)
  rw [hA, hB, hS, wipedOut_eq_false_iff]
  split_ifs <;> omega

/-- `find?` on an association list with duplicate-free keys returns
the (unique) binding of the key. -/
theorem find?_beq_of_nodup {α β : Type} [BEq α] [LawfulBEq α]
    (l : List (α × β)) (a : α) (b : β)
    (hnd : (l.map Prod.fst).Nodup) (hp : (a, b) ∈ l) :
    l.find? (fun q => q.1 == a) = some (a, b) := by
  induction l with
  | nil => cases hp
  | cons q rest ih =>
      rw [List.map_cons, List.nodup_cons] at hnd
      rcases List.mem_cons.mp hp with he | hp2
      · rw [← he]
        rw [List.find?_cons_of_pos rest
          (show ((fun r : α × β => r.1 == a) (a, b)) = true by simp)]
      · have hq : ¬(q.1 == a) = true := by
          simp only [beq_iff_eq]
          intro hcon
          exact hnd.1 (hcon ▸ List.mem_map.mpr ⟨(a, b), hp2, rfl⟩)
        rw [List.find?_cons_of_neg rest
          (show ¬((fun r : α × β => r.1 == a) q = true) from hq)]
        exact ih hnd.2 hp2

theorem map_fst_pairmap {γ α β : Type} (l : List γ)
    (f : γ → α) (g : γ → β) :
    ((l.map (fun q => (f q, g q))).map Prod.fst) = l.map f := by
  rw [List.map_map]
  rfl

/-- The fold of `preprocess_pattern`, characterized for patterns whose
populated values are pairwise distinct: every symbol gets the
singleton list of its (one) offset. -/
theorem preprocess_fold (pat : SparseList (Option Int)) (L : Int)
    (pairs : List (Int × Int))
    (hget : ∀ q ∈ pairs, slGet pat q.1 = some q.2)
    (hvals : (pairs.map Prod.snd).Nodup) :
    ∀ (todo done : List (Int × Int)), pairs = done ++ todo →
    (todo.map Prod.fst).foldl
      (fun result k =>
        let name := slGet pat k
        match alGet result name with
        | Option.none => alSet result name [L - k - 1]
        | some lst =>
            if !pyEqVI name (lst.getLastD 0) then
              alSet result name (lst ++ [L - k - 1])
            else result)
      (done.map (fun q => ((some q.2 : Option Int), [L - q.1 - 1]))) =
    pairs.map (fun q => ((some q.2 : Option Int), [L - q.1 - 1])) := by
  intro todo
  induction todo with
  | nil =>
      intro done hsplit
      rw [List.map_nil, List.foldl_nil, hsplit, List.append_nil]
  | cons p rest ih =>
      intro done hsplit
      rw [List.map_cons, List.foldl_cons]
      have hp : p ∈ pairs := by
        rw [hsplit]
        exact List.mem_append.mpr (Or.inr (List.mem_cons_self p rest))
      have hname : slGet pat p.1 = some p.2 := hget p hp
      have hfind : (done.map
          (fun q => ((some q.2 : Option Int), [L - q.1 - 1]))).find?
            (fun r => r.1 == some p.2) = Option.none := by
        rw [List.find?_eq_none]
        intro x hx
        obtain ⟨d, hd, hdx⟩ := List.mem_map.mp hx
        rw [← hdx]
        simp only [beq_iff_eq, Option.some.injEq]
        intro hcon
        have hnd := hvals
        rw [hsplit, List.map_append, List.nodup_append] at hnd
        exact hnd.2.2 (List.mem_map.mpr ⟨d, hd, hcon⟩)
          (List.mem_map.mpr ⟨p, List.mem_cons_self p rest, rfl⟩)
      have hal : alGet (done.map
          (fun q => ((some q.2 : Option Int), [L - q.1 - 1]))) (some p.2) =
          Option.none := by
        unfold alGet
        rw [hfind]
      rw [hname]
      simp only [hal]
      have hset : alSet (done.map
          (fun q => ((some q.2 : Option Int), [L - q.1 - 1]))) (some p.2)
            [L - p.1 - 1] =
          (done ++ [p]).map
            (fun q => ((some q.2 : Option Int), [L - q.1 - 1])) := by
        unfold alSet
        rw [hfind]
        simp
      rw [hset]
      exact ih (done ++ [p]) (by rw [hsplit, List.append_assoc]; rfl)

theorem wipe_interval_nil {V : Type} (d : V) (b t : Int) :
    wipe_interval ⟨[], [], d⟩ b t = ⟨[], [], d⟩ := rfl

theorem wipe_interval_single {V : Type} (d v : V) (s b t : Int)
    (h : wipedOut b t s = false) :
    wipe_interval ⟨[s], [(s, v)], d⟩ b t = ⟨[s], [(s, v)], d⟩ := by
  unfold wipe_interval
  simp [h]

theorem slGet_nil {V : Type} (d : V) (x : Int) : slGet ⟨[], [], d⟩ x = d := rfl

theorem slGet_single {V : Type} (d v : V) (s : Int) :
    slGet ⟨[s], [(s, v)], d⟩ s = v := by
  unfold slGet
  simp

theorem slSet_nil_ne {V : Type} [DecidableEq V] (d v : V) (s : Int)
    (h : ¬v = d) :
    slSet ⟨[], [], d⟩ s v = ⟨[s], [(s, v)], d⟩ := by
  unfold slSet
  simp [h, insort]

theorem slSet_single_ne {V : Type} [DecidableEq V] (d u v : V) (s : Int)
    (h : ¬v = d) :
    slSet ⟨[s], [(s, u)], d⟩ s v = ⟨[s], [(s, v)], d⟩ := by
  unfold slSet
  simp [h]

/-- Counter state after `t` increments of the single accumulation
slot. -/
def amCount (s : Int) (t : Nat) : SparseList (Option Int) :=
  if t = 0 then ⟨[], [], some 0⟩ else ⟨[s], [(s, some (t : Int))], some 0⟩

/-- Scan state after `t` exact-occurrence increments: support
`max kmin t`, offsets empty until the support threshold is reached,
then `{o}`. -/
def amInv (s o kmin : Int) (t : Nat) (j : Int) : AMState :=
  ⟨amCount s t, if (t : Int) < kmin then ∅ else {o}, max kmin (t : Int), j⟩

theorem amCount_incr (s : Int) (t : Nat) :
    slSet (amCount s t) s
        (match slGet (amCount s t) s with
         | some n => some (n + 1)
         | Option.none => Option.none) = amCount s (t + 1) := by
  cases t with
  | zero =>
      rw [show amCount s 0 = ⟨[], [], some 0⟩ from rfl, slGet_nil]
      rw [slSet_nil_ne _ _ _ (by simp)]
      unfold amCount
      norm_num
  | succ n =>
      rw [show amCount s (n + 1) =
        ⟨[s], [(s, some ((n + 1 : Nat) : Int))], some 0⟩ from rfl]
      rw [slGet_single]
      rw [slSet_single_ne _ _ _ _ (by
        intro hcon
        rw [Option.some.injEq] at hcon
        omega)]
      show (⟨[s], [(s, some (((n + 1 : Nat) : Int) + 1))], some 0⟩ :
        SparseList (Option Int)) = amCount s (n + 1 + 1)
      rw [show amCount s (n + 1 + 1) =
        ⟨[s], [(s, some ((n + 2 : Nat) : Int))], some 0⟩ from rfl]
      have hcast : (((n + 1 : Nat) : Int) + 1) = ((n + 2 : Nat) : Int) := by
        push_cast
        ring
      rw [hcast]

theorem amCount_get (s : Int) (t : Nat) :
    slGet (amCount s (t + 1)) s = some ((t : Int) + 1) := by
  rw [show amCount s (t + 1) =
    ⟨[s], [(s, some ((t + 1 : Nat) : Int))], some 0⟩ from rfl]
  rw [slGet_single]
  norm_num

/-- One exact-occurrence step of the inner loop: the single offset
`m - b - 1` of the current symbol lands in the accumulation slot and
advances the invariant by one. -/
theorem amInner_step (m o kmin b j : Int) (t : Nat) :
    amInner m (b + o) [m - b - 1]
      (amInv ((o + m - 1).emod m) o kmin t j) =
    amInv ((o + m - 1).emod m) o kmin (t + 1) j := by
  unfold amInner
  rw [List.foldl_cons, List.foldl_nil]
  simp only at *
  rw [show b + o + (m - b - 1) = o + m - 1 by ring]
  have hcnt : (amInv ((o + m - 1).emod m) o kmin t j).count = amCount ((o + m - 1).emod m) t := rfl
  have hk : (amInv ((o + m - 1).emod m) o kmin t j).k = max kmin (t : Int) := rfl
  have hmo : (amInv ((o + m - 1).emod m) o kmin t j).match_offsets =
      if (t : Int) < kmin then ∅ else {o} := rfl
  have hjp : (amInv ((o + m - 1).emod m) o kmin t j).j = j := rfl
  rw [hcnt, amCount_incr, amCount_get, hk, hmo, hjp]
  rw [show o + m - 1 - m + 1 = o by ring]
  rcases lt_trichotomy ((t : Int) + 1) kmin with hlt | heq | hgt
  · have he : pyEqVI (some ((t : Int) + 1)) (max kmin (t : Int)) = false := by
      simp only [pyEqVI, beq_eq_false_iff_ne, ne_eq]
      omega
    have hg : pyGtVI (some ((t : Int) + 1)) (max kmin (t : Int)) = false := by
      simp only [pyGtVI, decide_eq_false_iff_not, not_lt]
      omega
    rw [he]
    rw [if_neg (by simp : ¬((false : Bool) = true))]
    dsimp only
    rw [hg]
    rw [if_neg (by simp : ¬((false : Bool) = true))]
    unfold amInv
    rw [if_pos (by omega : ((t : Nat) : Int) < kmin),
      if_pos (by push_cast; omega : (((t + 1 : Nat)) : Int) < kmin)]
    have : max kmin ((t : Nat) : Int) = max kmin (((t + 1 : Nat)) : Int) := by
      push_cast
      omega
    rw [this]
  · have he : pyEqVI (some ((t : Int) + 1)) (max kmin (t : Int)) = true := by
      simp only [pyEqVI, beq_iff_eq]
      omega
    have hg : pyGtVI (some ((t : Int) + 1)) (max kmin (t : Int)) = false := by
      simp only [pyGtVI, decide_eq_false_iff_not, not_lt]
      omega
    rw [he]
    rw [if_pos (rfl : (true : Bool) = true)]
    dsimp only
    rw [hg]
    rw [if_neg (by simp : ¬((false : Bool) = true))]
    unfold amInv
    rw [if_pos (by omega : ((t : Nat) : Int) < kmin),
      if_neg (by push_cast; omega : ¬(((t + 1 : Nat)) : Int) < kmin)]
    have hmax : max kmin ((t : Nat) : Int) = max kmin (((t + 1 : Nat)) : Int) := by
      push_cast
      omega
    rw [hmax]
    simp
  · have he : pyEqVI (some ((t : Int) + 1)) (max kmin (t : Int)) = false := by
      simp only [pyEqVI, beq_eq_false_iff_ne, ne_eq]
      omega
    have hg : pyGtVI (some ((t : Int) + 1)) (max kmin (t : Int)) = true := by
      simp only [pyGtVI, decide_eq_true_eq]
      omega
    rw [he]
    rw [if_neg (by simp : ¬((false : Bool) = true))]
    dsimp only
    rw [hg]
    rw [if_pos (rfl : (true : Bool) = true)]
    unfold amInv
    rw [if_neg (by push_cast; omega : ¬(((t + 1 : Nat)) : Int) < kmin)]
    have hmax : max kmin (((t + 1 : Nat)) : Int) = (t : Int) + 1 := by
      push_cast
      omega
    rw [hmax]
    simp

theorem amInv_update (s o kmin : Int) (t : Nat) (j i : Int) :
    ({ amInv s o kmin t j with
        count := amCount s t, j := i } : AMState) = amInv s o kmin t i := rfl

/-- The outer loop on an exact occurrence: processing the remaining
shifted keys advances the invariant by their number; the accumulation
slot survives every interval wipe. -/
theorem amLoop_exact (pairs : List (Int × Int)) (o stop kmin m : Int)
    (hvals : (pairs.map Prod.snd).Nodup)
    (hkeys : (pairs.map Prod.fst).Nodup)
    (hbounds : ∀ q ∈ pairs, 0 ≤ q.1 ∧ q.1 < m)
    (hos : o ≤ stop) :
    ∀ (todo : List (Int × Int)) (t : Nat) (j : Int),
      todo.Sublist pairs →
      (todo.map Prod.fst).Pairwise (· < ·) →
      (t = 0 ∨ ∃ a, j = a + o ∧ 0 ≤ a ∧ a < m ∧ ∀ q ∈ todo, a < q.1) →
      ∃ j2, amLoop
        ⟨pairs.map (fun q => q.1 + o),
         pairs.map (fun q => (q.1 + o, some q.2)), Option.none⟩
        (pairs.map (fun q => ((some q.2 : Option Int), [m - q.1 - 1])))
        m stop (todo.map (fun q => q.1 + o))
        (amInv ((o + m - 1).emod m) o kmin t j) =
        amInv ((o + m - 1).emod m) o kmin (t + todo.length) j2 := by
  intro todo
  induction todo with
  | nil =>
      intro t j _ _ _
      refine ⟨j, ?_⟩
      rw [List.map_nil, amLoop, List.length_nil, Nat.add_zero]
  | cons p rest ih =>
      intro t j hsub hpair hj
      have hp : p ∈ pairs := hsub.subset (List.mem_cons_self p rest)
      obtain ⟨hb0, hbm⟩ := hbounds p hp
      rw [List.map_cons]
      simp only [amLoop]
      rw [if_neg (by omega : ¬p.1 + o > stop + m - 1)]
      have hjproj : (amInv ((o + m - 1).emod m) o kmin t j).j = j := rfl
      have hcproj : (amInv ((o + m - 1).emod m) o kmin t j).count =
        amCount ((o + m - 1).emod m) t := rfl
      rw [hjproj, hcproj]
      have hwipe : wipe_interval (amCount ((o + m - 1).emod m) t)
          (j.emod m) ((p.1 + o).emod m) = amCount ((o + m - 1).emod m) t := by
        by_cases ht : t = 0
        · rw [ht]
          rw [show amCount ((o + m - 1).emod m) 0 = ⟨[], [], some 0⟩ from rfl]
          exact wipe_interval_nil _ _ _
        · rcases hj with hj0 | ⟨a, rfl, ha0, ham, halt⟩
          · exact absurd hj0 ht
          · unfold amCount
            rw [if_neg ht]
            refine wipe_interval_single _ _ _ _ _ ?_
            have hs : (o + m - 1).emod m = (o - 1).emod m := by
              show (o + m - 1) % m = (o - 1) % m
              rw [show o + m - 1 = o - 1 + m * 1 by ring,
                Int.add_mul_emod_self_left]
            rw [hs]
            exact wipedOut_slot_false m o a p.1 ha0
              (halt p (List.mem_cons_self p rest)) hbm
      rw [hwipe]
      have hndtxt : ((pairs.map
          (fun q => (q.1 + o, some q.2))).map Prod.fst).Nodup := by
        rw [map_fst_pairmap]
        have he2 : pairs.map (fun q => q.1 + o) =
            (pairs.map Prod.fst).map (fun x => x + o) := by
          rw [List.map_map]
          rfl
        rw [he2]
        exact hkeys.map (add_left_injective o)
      have hslget : slGet
          ⟨pairs.map (fun q => q.1 + o),
           pairs.map (fun q => (q.1 + o, some q.2)), Option.none⟩
          (p.1 + o) = some p.2 := by
        unfold slGet
        rw [find?_beq_of_nodup _ (p.1 + o) (some p.2) hndtxt
          (List.mem_map.mpr ⟨p, hp, rfl⟩)]
      rw [hslget]
      have hndlkp : ((pairs.map
          (fun q => ((some q.2 : Option Int), [m - q.1 - 1]))).map
            Prod.fst).Nodup := by
        rw [map_fst_pairmap]
        have he2 : pairs.map (fun q => (some q.2 : Option Int)) =
            (pairs.map Prod.snd).map (fun x => (some x : Option Int)) := by
          rw [List.map_map]
          rfl
        rw [he2]
        exact hvals.map (Option.some_injective Int)
      have halget : alGet
          (pairs.map (fun q => ((some q.2 : Option Int), [m - q.1 - 1])))
          (some p.2) = some [m - p.1 - 1] := by
        unfold alGet
        rw [find?_beq_of_nodup _ (some p.2) [m - p.1 - 1] hndlkp
          (List.mem_map.mpr ⟨p, hp, rfl⟩)]
      rw [halget]
      rw [show (some [m - p.1 - 1]).getD ([] : List Int) = [m - p.1 - 1]
        from rfl]
      have hsame : amInner m (p.1 + o) [m - p.1 - 1]
          (AMState.mk (amCount ((o + m - 1).emod m) t)
            ((amInv ((o + m - 1).emod m) o kmin t j).match_offsets)
            ((amInv ((o + m - 1).emod m) o kmin t j).k) (p.1 + o)) =
          amInv ((o + m - 1).emod m) o kmin (t + 1) (p.1 + o) := by
        have h1 : AMState.mk (amCount ((o + m - 1).emod m) t)
            ((amInv ((o + m - 1).emod m) o kmin t j).match_offsets)
            ((amInv ((o + m - 1).emod m) o kmin t j).k) (p.1 + o) =
            amInv ((o + m - 1).emod m) o kmin t (p.1 + o) := rfl
        rw [h1]
        exact amInner_step m o kmin p.1 (p.1 + o) t
      rw [hsame]
      rw [List.map_cons] at hpair
      obtain ⟨j2, hrec⟩ := ih (t + 1) (p.1 + o)
        (List.sublist_of_cons_sublist hsub) hpair.tail
        (Or.inr ⟨p.1, rfl, hb0, hbm, fun q hq =>
          (List.pairwise_cons.mp hpair).1 q.1 (List.mem_map.mpr ⟨q, hq, rfl⟩)⟩)
      refine ⟨j2, ?_⟩
      rw [hrec, List.length_cons,
        show t + (rest.length + 1) = t + 1 + rest.length by omega]

/-- C3 (amended): on a pattern with pairwise-distinct populated values
embedded verbatim in the text at offset `o` (the text's populated keys
are the pattern's shifted by `o`, with equal values), with
`0 ≤ o ≤ stop` and `1 ≤ kmin ≤` the number of populated pattern keys,
`approximate_matching` reports exactly the offset set `{o}` with
support equal to the number of populated pattern keys (ratio `1`). -/
theorem approximate_matching_exact_embedding
    (pairs : List (Int × Int)) (o stop kmin : Int)
    (hne : pairs ≠ [])
    (hsort : (pairs.map Prod.fst).Pairwise (· < ·))
    (hpos : ∀ p ∈ pairs, 0 ≤ p.1)
    (hvals : (pairs.map Prod.snd).Nodup)
    (ho : 0 ≤ o) (hos : o ≤ stop)
    (hk1 : 1 ≤ kmin) (hkN : kmin ≤ (pairs.length : Int)) :
    approximate_matching
      ⟨pairs.map (fun q => q.1 + o),
       pairs.map (fun q => (q.1 + o, some q.2)), Option.none⟩
      ⟨pairs.map Prod.fst,
       pairs.map (fun q => (q.1, some q.2)), Option.none⟩
      stop kmin =
    some ({o}, (pairs.length : Int), 1) := by
  have hkeys : (pairs.map Prod.fst).Nodup :=
    hsort.imp (fun hxy => ne_of_lt hxy)
  have hmapne : pairs.map Prod.fst ≠ [] := by
    intro hcon
    exact hne (List.map_eq_nil_iff.mp hcon)
  set pL := pairs.getLast hne with hpL
  have hlast : pairs.getLast? = some pL := List.getLast?_eq_getLast pairs hne
  have hpL0 : 0 ≤ pL.1 := hpos pL (List.getLast_mem hne)
  set m := pL.1 + 1 with hm
  have hLpat : slLen ⟨pairs.map Prod.fst,
      pairs.map (fun q => (q.1, some q.2)),
      (Option.none : Option Int)⟩ = m := by
    unfold slLen
    rw [List.getLast?_map, hlast]
    rfl
  have hLtxt : slLen ⟨pairs.map (fun q => q.1 + o),
      pairs.map (fun q => (q.1 + o, some q.2)),
      (Option.none : Option Int)⟩ = pL.1 + o + 1 := by
    unfold slLen
    rw [List.getLast?_map, hlast]
    rfl
  have hbounds : ∀ q ∈ pairs, 0 ≤ q.1 ∧ q.1 < m := by
    intro q hq
    refine ⟨hpos q hq, ?_⟩
    have hmem : q.1 ∈ pairs.map Prod.fst := List.mem_map.mpr ⟨q, hq, rfl⟩
    have hgl : (pairs.map Prod.fst).getLast hmapne = pL.1 := by
      have h1 := List.getLast?_eq_getLast (pairs.map Prod.fst) hmapne
      rw [List.getLast?_map, hlast] at h1
      exact (Option.some.injEq _ _).mp h1.symm
    rcases pairwise_rel_getLast (pairs.map Prod.fst) hmapne hsort q.1 hmem
      with he | hl
    · rw [he, hgl]
      omega
    · rw [hgl] at hl
      omega
  have hget : ∀ q ∈ pairs, slGet ⟨pairs.map Prod.fst,
      pairs.map (fun q => (q.1, some q.2)),
      (Option.none : Option Int)⟩ q.1 = some q.2 := by
    intro q hq
    unfold slGet
    rw [find?_beq_of_nodup _ q.1 (some q.2) ?_
      (List.mem_map.mpr ⟨q, hq, rfl⟩)]
    rw [map_fst_pairmap]
    exact hkeys
  have hlookup : preprocess_pattern ⟨pairs.map Prod.fst,
      pairs.map (fun q => (q.1, some q.2)), Option.none⟩ =
      pairs.map (fun q => ((some q.2 : Option Int), [m - q.1 - 1])) := by
    unfold preprocess_pattern
    rw [hLpat]
    have h0 := preprocess_fold ⟨pairs.map Prod.fst,
      pairs.map (fun q => (q.1, some q.2)), Option.none⟩ m pairs hget hvals
      pairs [] rfl
    rw [List.map_nil] at h0
    exact h0
  obtain ⟨j2, hloop⟩ := amLoop_exact pairs o stop kmin m hvals hkeys hbounds
    hos pairs 0 0 (List.Sublist.refl pairs) hsort (Or.inl rfl)
  have hN0 : pairs.length ≠ 0 := by
    intro hcon
    exact hne (List.length_eq_zero.mp hcon)
  have hst0 : (⟨⟨[], [], some 0⟩, ∅, kmin, 0⟩ : AMState) =
      amInv ((o + m - 1).emod m) o kmin 0 0 := by
    unfold amInv amCount
    rw [if_pos rfl, if_pos (by omega : ((0 : Nat) : Int) < kmin)]
    rw [max_eq_left (by omega : ((0 : Nat) : Int) ≤ kmin)]
  simp only [approximate_matching]
  rw [hLtxt, hLpat]
  rw [if_neg (by omega : ¬(pL.1 + o + 1 = 0 ∨ m = 0))]
  rw [hlookup]
  rw [hst0, hloop]
  have hmoN : (amInv ((o + m - 1).emod m) o kmin (0 + pairs.length)
      j2).match_offsets = {o} := by
    unfold amInv
    rw [if_neg (by push_cast; omega :
      ¬((0 + pairs.length : Nat) : Int) < kmin)]
  have hkNv : (amInv ((o + m - 1).emod m) o kmin (0 + pairs.length) j2).k =
      (pairs.length : Int) := by
    unfold amInv
    rw [max_eq_right (by push_cast; omega :
      kmin ≤ ((0 + pairs.length : Nat) : Int))]
    push_cast
    ring
  rw [hmoN, hkNv]
  rw [if_pos (by simp : ¬(({o} : Finset Int).card = 0))]
  rw [List.length_map]
  have hdiv : (((pairs.length : Int) : ℚ)) / ((pairs.length : Nat) : ℚ) = 1 := by
    push_cast
    rw [div_self]
    exact_mod_cast hN0
  rw [hdiv]

theorem approximate_matching_exact_embedding_witness :
    approximate_matching
      ⟨[((0 : Int), (10 : Int)), (1, 20)].map (fun q => q.1 + 5),
       [((0 : Int), (10 : Int)), (1, 20)].map (fun q => (q.1 + 5, some q.2)),
       Option.none⟩
      ⟨[((0 : Int), (10 : Int)), (1, 20)].map Prod.fst,
       [((0 : Int), (10 : Int)), (1, 20)].map (fun q => (q.1, some q.2)),
       Option.none⟩
      7 1 =
    some ({5}, ((2 : Nat) : Int), 1) :=
  approximate_matching_exact_embedding [((0 : Int), (10 : Int)), (1, 20)]
    5 7 1 (by decide) (by decide) (by decide) (by decide) (by decide)
    (by decide) (by decide) (by decide)

end RB
